import Mathlib

/-!
Verification of `conway` (knusbaum/conway, `main.go`).

A shallow embedding of the rasterizer `doLine` (Bresenham's line algorithm) and of
the per-step function `Game.Update`, together with the properties stated for them.

Modelling conventions.

* Go `int` is the 64-bit integer type. `doLine64` is the rasterizer with every
  arithmetic operation wrapping modulo `2 ^ 64`; `doLine` is the same code over unbounded
  integers `Int`, and the two make the same run within the no-overflow bound `lineFits`
  (`doLine64_of_doLine`). The pointer coordinates and offsets of `Update` are unbounded
  integers; the `uint64` frame counter is a `Nat` reduced modulo `2 ^ 64` at its
  increment.
* The callback `f` handed to `doLine` is observed through the list of points it is
  called with, in call order.
* The unbounded `for` loop of `doLine` is run with an iteration budget (`fuel`); a run
  that exhausts its budget has no result (`none`).
* `float32` and `float64` values (the zoom scale, the wheel delta, the intermediate
  results of the pointer mapping) are exact rationals, and `int(f)` truncates toward
  zero.
* `active` and `buff` are pointers (`ImgRef`) into a store holding the two images, so
  that the pointer swap of the transform pass is a swap of pointers.
-/

namespace Conway

/-! ## The rasterizer -/

/-- Go `absi` over unbounded integers; `absi64` is the function on 64-bit `int`, where
the negation wraps. -/
def absi (i : Int) : Int :=
  if i < 0 then -i else i

/-- The three `break` statements of the loop of `doLine`, in source order. -/
inductive LoopExit where
  /-- The first one, `if x0 == x1 && y0 == y1 { break }`. -/
  | target
  /-- The one inside `if e2 >= dy`, `if x0 == x1 { break }`. -/
  | xGuard
  /-- The one inside `if e2 <= dx`, `if y0 == y1 { break }`. -/
  | yGuard
  deriving DecidableEq, Repr

/-- The mutable variables of the loop of `doLine`. -/
structure LineState where
  x0 : Int
  y0 : Int
  error : Int
  deriving DecidableEq, Repr

/-- One iteration of the loop of `doLine`, after the call `f(x0, y0)`:
either one of the `break`s is taken, or the iteration ends with updated variables.
The arithmetic is that of unbounded integers; `doLineBody64` is the iteration on 64-bit
`int`. -/
def doLineBody (x1 y1 dx dy sx sy : Int) (s : LineState) : Except LoopExit LineState := do
  if s.x0 = x1 ∧ s.y0 = y1 then
    throw LoopExit.target
  let e2 := 2 * s.error
  let s ←
    if e2 ≥ dy then
      if s.x0 = x1 then
        throw LoopExit.xGuard
      else
        pure { s with error := s.error + dy, x0 := s.x0 + sx }
    else
      pure s
  if e2 ≤ dx then
    if s.y0 = y1 then
      throw LoopExit.yGuard
    else
      pure { s with error := s.error + dx, y0 := s.y0 + sy }
  else
    pure s

/-- The loop `for { f(x0, y0); ... }` of `doLine`, run for at most `fuel` iterations.
The result is the list of points passed to `f`, and the `break` that left the loop. -/
def doLineLoop (x1 y1 dx dy sx sy : Int) :
    Nat → LineState → Option (List (Int × Int) × LoopExit)
  | 0, _ => none
  | fuel + 1, s =>
    match doLineBody x1 y1 dx dy sx sy s with
    | .error e => some ([(s.x0, s.y0)], e)
    | .ok s' =>
      (doLineLoop x1 y1 dx dy sx sy fuel s').map fun r => ((s.x0, s.y0) :: r.1, r.2)

/-- Go `doLine` over unbounded integers, with an explicit iteration budget for its
loop; `doLine64` is the function on 64-bit `int`. -/
def doLineFuel (fuel : Nat) (x0 y0 x1 y1 : Int) : Option (List (Int × Int) × LoopExit) :=
  let dx := absi (x1 - x0)
  let sx : Int := if x0 < x1 then 1 else -1
  let dy := -absi (y1 - y0)
  let sy : Int := if y0 < y1 then 1 else -1
  let error := dx + dy
  doLineLoop x1 y1 dx dy sx sy fuel ⟨x0, y0, error⟩

/-- An iteration budget that `doLine` never exhausts (`doLine_run`): one
iteration per unit of remaining distance in `x` and in `y`, plus the final one. -/
def lineBudget (x0 y0 x1 y1 : Int) : Nat :=
  (x1 - x0).natAbs + (y1 - y0).natAbs + 1

/-- Go `doLine` over unbounded integers: the points passed to the callback, in order,
and the `break` taken. Within the no-overflow bound `lineFits` this is the run of
`doLine64` (`doLine64_of_doLine`). -/
def doLine (x0 y0 x1 y1 : Int) : Option (List (Int × Int) × LoopExit) :=
  doLineFuel (lineBudget x0 y0 x1 y1) x0 y0 x1 y1

/-- Two pixels are 8-neighbours: distinct, and at most one apart in `x` and in `y`. -/
def neighbour8 (p q : Int × Int) : Prop :=
  (p.1 - q.1).natAbs ≤ 1 ∧ (p.2 - q.2).natAbs ≤ 1 ∧ p ≠ q

instance (p q : Int × Int) : Decidable (neighbour8 p q) := by
  unfold neighbour8; infer_instance

/-- The points `doLine` passes to its callback, in call order. By `doLine_strokePoints`
every run of `doLine` has a result, so the `none` branch is never taken. -/
def strokePoints (x0 y0 x1 y1 : Int) : List (Int × Int) :=
  match doLine x0 y0 x1 y1 with
  | some r => r.1
  | none => []

/-! ## The canvas and the game state -/

/-- Go constant `WIDTH`. -/
def WIDTH : Int := 1024

/-- Go constant `HEIGHT`. -/
def HEIGHT : Int := 768

/-- Go `color.RGBA`. -/
structure RGBA where
  r : Nat
  g : Nat
  b : Nat
  a : Nat
  deriving DecidableEq, Repr

/-- The paint colour `color.RGBA{255, 0, 0, 255}`. -/
def paintColor : RGBA := ⟨255, 0, 0, 255⟩

/-- The erase colour `color.RGBA{0, 0, 0, 0}`, also the value of a cleared pixel. -/
def eraseColor : RGBA := ⟨0, 0, 0, 0⟩

/-- Modelled from the spec: the external type `ebiten.Image` as created by
`ebiten.NewImage(WIDTH, HEIGHT)`, a fixed-size `WIDTH × HEIGHT` grid of pixels, each a
4-channel colour. Only the pixels inside the grid are stored. -/
structure Image where
  pix : Int × Int → RGBA

/-- The bounds of an image made by `ebiten.NewImage(WIDTH, HEIGHT)`. -/
def inBounds (p : Int × Int) : Prop :=
  0 ≤ p.1 ∧ p.1 < WIDTH ∧ 0 ≤ p.2 ∧ p.2 < HEIGHT

instance (p : Int × Int) : Decidable (inBounds p) := by
  unfold inBounds; infer_instance

/-- Modelled from the spec: `ebiten.Image.Set`, the `paint(x, y, color)` of the canvas;
a write outside the grid has no effect. -/
def Image.Set (img : Image) (x y : Int) (clr : RGBA) : Image :=
  ⟨fun p => if p = (x, y) ∧ inBounds (x, y) then clr else img.pix p⟩

/-- Modelled from the spec: `ebiten.Image.Clear`, which resets the buffer to fully
transparent. -/
def Image.Clear (_ : Image) : Image :=
  ⟨fun _ => eraseColor⟩

/-- A new image, as returned by `ebiten.NewImage`: fully transparent. -/
def Image.new : Image :=
  ⟨fun _ => eraseColor⟩

/-- The effect on an image of `doLine(x0, y0, x1, y1, func(cx, cy) { img.Set(cx, cy, clr) })`:
the callback is applied to the visited points in call order. -/
def Image.stroke (img : Image) (x0 y0 x1 y1 : Int) (clr : RGBA) : Image :=
  (strokePoints x0 y0 x1 y1).foldl (fun im p => im.Set p.1 p.2 clr) img

/-- The two images allocated in `main`; the fields `active` and `buff` of `Game` are
pointers to them. -/
inductive ImgRef where
  | first
  | second
  deriving DecidableEq, Repr

/-- Go conversion `int(f)` of a floating-point value: truncation toward zero. -/
def goInt (q : ℚ) : Int :=
  if 0 ≤ q then ⌊q⌋ else ⌈q⌉

/-- Go `struct Game`, with the two images it points to. `float32` values are exact
rationals. The field `vertices` is left out: it is only ever assigned the constant
image bounds and read by the shader draw. `passes` is a ghost field that counts the
executions of the transform pass; no code reads it. -/
structure Game where
  shader : Image → Image
  images : ImgRef → Image
  active : ImgRef
  buff : ImgRef
  mousePX : Int
  mousePY : Int
  scale : ℚ
  offsetx : Int
  offsety : Int
  frame : Nat
  pause : Bool
  passes : Nat

/-- The device state read during one `Update`: `ebiten.CursorPosition`,
`inpututil.IsKeyJustPressed` for the space and `C` keys, `ebiten.IsMouseButtonPressed`
for the three buttons, and the vertical component of `ebiten.Wheel`. -/
structure Input where
  mx : Int
  my : Int
  keySpace : Bool
  keyC : Bool
  left : Bool
  right : Bool
  middle : Bool
  wheelY : ℚ

/-- The expression `self.offsetx + int(scaledWidth*float32(x)/WIDTH)` of `Update`, with
`scaledWidth := float32(bounds.Dx()) / self.scale`. -/
def Game.canvasX (self : Game) (x : Int) : Int :=
  let scaledWidth : ℚ := (WIDTH : ℚ) / self.scale
  self.offsetx + goInt (scaledWidth * (x : ℚ) / (WIDTH : ℚ))

/-- The expression `self.offsety + int(scaledHeight*float32(y)/HEIGHT)` of `Update`, with
`scaledHeight := float32(bounds.Dy()) / self.scale`. -/
def Game.canvasY (self : Game) (y : Int) : Int :=
  let scaledHeight : ℚ := (HEIGHT : ℚ) / self.scale
  self.offsety + goInt (scaledHeight * (y : ℚ) / (HEIGHT : ℚ))

/-- A stroke of `Update`: `doLine(mmx, mmy, ox, oy, ...)` writing `clr` into the active
image, from the mapped current pointer position to the mapped previous one. -/
def Game.strokeActive (self : Game) (mx my : Int) (clr : RGBA) : Game :=
  let mmx := self.canvasX mx
  let mmy := self.canvasY my
  let ox := self.canvasX self.mousePX
  let oy := self.canvasY self.mousePY
  { self with
    images := Function.update self.images self.active
      ((self.images self.active).stroke mmx mmy ox oy clr) }

/-- The middle-button branch of `Update`: pan by half the pointer motion, then clamp.
The integer division of Go truncates toward zero. -/
def Game.pan (self : Game) (mx my : Int) : Game :=
  let offsetx := self.offsetx - Int.tdiv (mx - self.mousePX) 2
  let offsety := self.offsety - Int.tdiv (my - self.mousePY) 2
  let offsetx := if offsetx < 0 then 0 else offsetx
  let offsety := if offsety < 0 then 0 else offsety
  let offsetx :=
    if offsetx + goInt ((WIDTH : ℚ) / self.scale) > WIDTH then
      offsetx - (offsetx + goInt ((WIDTH : ℚ) / self.scale) - WIDTH)
    else offsetx
  let offsety :=
    if offsety + goInt ((HEIGHT : ℚ) / self.scale) > HEIGHT then
      offsety - (offsety + goInt ((HEIGHT : ℚ) / self.scale) - HEIGHT)
    else offsety
  { self with offsetx := offsetx, offsety := offsety }

/-- The wheel block of `Update`: `if _, y := ebiten.Wheel(); y != 0 { ... }`. -/
def Game.zoom (self : Game) (y : ℚ) : Game :=
  if y ≠ 0 then
    let scale := self.scale + y / 10
    let scale := if scale < 1 then 1 else scale
    let scale := if scale > 10 then 10 else scale
    { self with scale := scale }
  else self

/-- The statement `self.frame++` on the `uint64` counter. -/
def Game.tick (self : Game) : Game :=
  { self with frame := (self.frame + 1) % 2 ^ 64 }

/-- The block `if inpututil.IsKeyJustPressed(ebiten.KeySpace) { ... }`. -/
def Game.pauseKey (self : Game) (pressed : Bool) : Game :=
  if pressed then { self with pause := !self.pause } else self

/-- The block `if inpututil.IsKeyJustPressed(ebiten.KeyC) { self.active.Clear() }`. -/
def Game.clearKey (self : Game) (pressed : Bool) : Game :=
  if pressed then
    { self with
      images := Function.update self.images self.active (self.images self.active).Clear }
  else self

/-- The `if ... else if ... else if ...` chain of `Update` over the three mouse
buttons. -/
def Game.buttons (self : Game) (inp : Input) : Game :=
  if inp.left then
    self.strokeActive inp.mx inp.my paintColor
  else if inp.right then
    self.strokeActive inp.mx inp.my eraseColor
  else if inp.middle then
    self.pan inp.mx inp.my
  else self

/-- The statements `self.mousePX = mx` and `self.mousePY = my`. -/
def Game.trace (self : Game) (mx my : Int) : Game :=
  { self with mousePX := mx, mousePY := my }

/-- The part of `Update` before the scheduler test (source lines 76 to 140), in source
order: counter, pause key, clear key, buttons, wheel, pointer trace. -/
def Game.inputStage (self : Game) (inp : Input) : Game :=
  (((((self.tick).pauseKey inp.keySpace).clearKey inp.keyC).buttons inp).zoom
    inp.wheelY).trace inp.mx inp.my

/-- The body of `if self.frame%10 == 0 && !self.pause` in `Update`: clear `buff`, draw
the shader's image of `active` into it, and swap the two pointers. -/
def Game.transformPass (self : Game) : Game :=
  let images := Function.update self.images self.buff (self.images self.buff).Clear
  let images := Function.update images self.buff (self.shader (images self.active))
  { self with images := images, active := self.buff, buff := self.active,
              passes := self.passes + 1 }

/-- Go `(*Game).Update`. -/
def Game.Update (self : Game) (inp : Input) : Game :=
  let self := self.inputStage inp
  if self.frame % 10 = 0 ∧ !self.pause then
    self.transformPass
  else self

/-- The image `game.active` after the two `for` loops of `main`: the pixels with
`100 ≤ x < 130` and `10 ≤ y < 20` are set to the paint colour. -/
def mainActive : Image :=
  (List.range' 10 10).foldl
    (fun img y => (List.range' 100 30).foldl
      (fun img x => img.Set (x : Int) (y : Int) paintColor) img)
    Image.new

/-- The `Game` built in `main`, for the given compiled shader. -/
def initGame (shader : Image → Image) : Game where
  shader := shader
  images := fun r => match r with
    | ImgRef.first => mainActive
    | ImgRef.second => Image.new
  active := ImgRef.first
  buff := ImgRef.second
  mousePX := 0
  mousePY := 0
  scale := 1
  offsetx := 0
  offsety := 0
  frame := 0
  pause := false
  passes := 0

/-- The state after a sequence of `Update` steps. -/
def Game.run (self : Game) (inps : List Input) : Game :=
  inps.foldl Game.Update self

/-- An `Update` input with the pointer at `(mx, my)` and nothing pressed or turned. -/
def idleInput (mx my : Int) : Input :=
  ⟨mx, my, false, false, false, false, false, 0⟩

/-- The scheduler condition of a step, in terms of the state before the step: the
counter after this step's increment is a multiple of the cadence 10, and the pause flag
after this step's toggle handling is off. -/
def passDue (g : Game) (inp : Input) : Prop :=
  ((g.frame + 1) % 2 ^ 64) % 10 = 0 ∧ (if inp.keySpace then !g.pause else g.pause) = false

instance (g : Game) (inp : Input) : Decidable (passDue g inp) := by
  unfold passDue; infer_instance

/-- Two steps from the state built in `main`: the canvas is cleared with the pointer at
`(100, 10)`, then the paint button is held with the pointer at `(130, 19)`. -/
def dragInputs : List Input :=
  [⟨100, 10, false, true, false, false, false, 0⟩,
   ⟨130, 19, false, false, true, false, false, 0⟩]

/-- Three steps from the state built in `main`: zoom in to scale 2 with the pointer at
`(1000, 0)`, drag with the middle button to `(0, 0)`, zoom back out to scale 1. -/
def zoomPanInputs : List Input :=
  [⟨1000, 0, false, false, false, false, false, 10⟩,
   ⟨0, 0, false, false, false, false, true, 0⟩,
   ⟨0, 0, false, false, false, false, false, -10⟩]

/-! ## Loop invariant of the rasterizer -/

/-- Remaining distance to the target, the variant of the loop of `doLine`. -/
def lineDist (x1 y1 : Int) (s : LineState) : Nat :=
  (x1 - s.x0).natAbs + (y1 - s.y0).natAbs

/-- Loop invariant of `doLine`: with `a` and `b` the numbers of `x` and `y` moves still
to make, the step signs point to the target and `error` is `dx + dy - a * dy - b * dx`. -/
def LineInv (x1 y1 dx dy sx sy : Int) (s : LineState) : Prop :=
  (sx = 1 ∨ sx = -1) ∧ (sy = 1 ∨ sy = -1) ∧
  ∃ a b : Int, 0 ≤ a ∧ a ≤ dx ∧ 0 ≤ b ∧ b ≤ -dy ∧
    x1 = s.x0 + sx * a ∧ y1 = s.y0 + sy * b ∧
    s.error = dx + dy - a * dy - b * dx

/-- The variables after an iteration in which no `break` is taken. -/
def lineNext (dx dy sx sy : Int) (s : LineState) : LineState :=
  if 2 * s.error ≥ dy then
    if 2 * s.error ≤ dx then
      ⟨s.x0 + sx, s.y0 + sy, s.error + dy + dx⟩
    else
      ⟨s.x0 + sx, s.y0, s.error + dy⟩
  else
    ⟨s.x0, s.y0 + sy, s.error + dx⟩

/-- Error bounds kept by the loop of `doLine` on a line whose major axis is `x`
(`|y1 - y0| ≤ |x1 - x0|`, with `dy = -|y1 - y0|`). -/
def XMajor (dx dy : Int) (s : LineState) : Prop :=
  dy ≤ 0 ∧ -dy ≤ dx ∧ dx + 2 * dy < 2 * s.error ∧ 2 * s.error ≤ 3 * dx + 2 * dy

instance (dx dy : Int) (s : LineState) : Decidable (XMajor dx dy s) := by
  unfold XMajor; infer_instance

/-- Error bounds kept by the loop of `doLine` on a line whose major axis is `y`
(`|x1 - x0| ≤ |y1 - y0|`, with `dy = -|y1 - y0|`). -/
def YMajor (dx dy : Int) (s : LineState) : Prop :=
  0 ≤ dx ∧ dx ≤ -dy ∧ 2 * dx + 3 * dy ≤ 2 * s.error ∧ 2 * s.error < 2 * dx + dy

instance (dx dy : Int) (s : LineState) : Decidable (YMajor dx dy s) := by
  unfold YMajor; infer_instance

/-- The point `p` is within half a pixel of the ideal segment from `(x0, y0)` to
`(x1, y1)`, measured along the minor axis and scaled by the length of the major one. -/
def nearLine (x0 y0 x1 y1 : Int) (p : Int × Int) : Prop :=
  2 * |absi (x1 - x0) * absi (p.2 - y0) - absi (y1 - y0) * absi (p.1 - x0)|
    ≤ max (absi (x1 - x0)) (absi (y1 - y0))

instance (x0 y0 x1 y1 : Int) (p : Int × Int) : Decidable (nearLine x0 y0 x1 y1 p) := by
  unfold nearLine; infer_instance

/-- Along the sequence, `x` and `y` each move towards the target or stay. -/
def towards (x0 y0 x1 y1 : Int) (p q : Int × Int) : Prop :=
  (x0 ≤ x1 → p.1 ≤ q.1) ∧ (x1 ≤ x0 → q.1 ≤ p.1) ∧
    (y0 ≤ y1 → p.2 ≤ q.2) ∧ (y1 ≤ y0 → q.2 ≤ p.2)

instance (x0 y0 x1 y1 : Int) (p q : Int × Int) : Decidable (towards x0 y0 x1 y1 p q) := by
  unfold towards; infer_instance

/-- The bounding rectangle of the two endpoints. -/
def inBox (x0 y0 x1 y1 : Int) (p : Int × Int) : Prop :=
  min x0 x1 ≤ p.1 ∧ p.1 ≤ max x0 x1 ∧ min y0 y1 ≤ p.2 ∧ p.2 ≤ max y0 y1

instance (x0 y0 x1 y1 : Int) (p : Int × Int) : Decidable (inBox x0 y0 x1 y1 p) := by
  unfold inBox; infer_instance

/-- The input of a pan step: the middle button is held with the pointer at `(0, 0)`. -/
def panInput : Input :=
  ⟨0, 0, false, false, false, false, true, 0⟩

/-- The state built in `main`, zoomed to scale 2, with the pointer trace at
`(1000, 600)`. -/
def zoomedGame : Game :=
  { initGame (fun img => img) with scale := 2, mousePX := 1000, mousePY := 600 }

/-- The active image a step writes into, before the button chain: cleared if the clear
key is pressed. -/
def Game.baseImage (g : Game) (inp : Input) : Image :=
  if inp.keyC then (g.images g.active).Clear else g.images g.active

/-- The stroke of a step with colour `c` on a given image: from the mapped current
pointer position to the mapped previous one, as in `Game.strokeActive`. -/
def Game.strokeOn (g : Game) (inp : Input) (img : Image) (c : RGBA) : Image :=
  img.stroke (g.canvasX inp.mx) (g.canvasY inp.my) (g.canvasX g.mousePX)
    (g.canvasY g.mousePY) c

/-- A step in which the clear key is pressed while the paint button is held, with the
pointer at `(0, 0)`. -/
def clearPaintInput : Input :=
  ⟨0, 0, false, true, true, false, false, 0⟩

/-- The state after nine steps from the state built in `main` in which nothing is
pressed: the canvas still holds the rectangle painted in `main`, and the next step
fires the pass. -/
def nineIdle : Game :=
  (initGame fun img => img).run (List.replicate 9 (idleInput 0 0))

/-- The state built in `main`, zoomed to scale 3 and panned to the largest offset
that the clamp allows at that scale, `WIDTH - int(WIDTH/3) = 683`. -/
def cornerGame : Game :=
  { initGame (fun img => img) with scale := 3, offsetx := 683 }

/-- The viewport invariants: the scale lies in `[1, 10]` and each offset lies between 0
and the canvas extent minus the visible extent at that scale. -/
def viewportOk (g : Game) : Prop :=
  1 ≤ g.scale ∧ g.scale ≤ 10 ∧
    0 ≤ g.offsetx ∧ g.offsetx ≤ WIDTH - goInt ((WIDTH : ℚ) / g.scale) ∧
    0 ≤ g.offsety ∧ g.offsety ≤ HEIGHT - goInt ((HEIGHT : ℚ) / g.scale)

instance (g : Game) : Decidable (viewportOk g) := by
  unfold viewportOk; infer_instance

/-! ## The rasterizer on 64-bit integers -/

/-- The value of an integer result in Go's 64-bit `int`: reduction modulo `2 ^ 64` into
`[-2 ^ 63, 2 ^ 63)`. -/
def wrap64 (i : Int) : Int :=
  (i + 2 ^ 63) % 2 ^ 64 - 2 ^ 63

/-- The values of Go's 64-bit `int`. -/
def int64 (i : Int) : Prop :=
  -2 ^ 63 ≤ i ∧ i < 2 ^ 63

instance (i : Int) : Decidable (int64 i) := by
  unfold int64; infer_instance

/-- Go `absi` on 64-bit `int`: the negation wraps, so that `absi64 (-2 ^ 63) = -2 ^ 63`. -/
def absi64 (i : Int) : Int :=
  if i < 0 then wrap64 (-i) else i

/-- One iteration of the loop of `doLine` on 64-bit `int`, after the call `f(x0, y0)`:
`doLineBody` with every arithmetic operation wrapping. -/
def doLineBody64 (x1 y1 dx dy sx sy : Int) (s : LineState) : Except LoopExit LineState := do
  if s.x0 = x1 ∧ s.y0 = y1 then
    throw LoopExit.target
  let e2 := wrap64 (2 * s.error)
  let s ←
    if e2 ≥ dy then
      if s.x0 = x1 then
        throw LoopExit.xGuard
      else
        pure { s with error := wrap64 (s.error + dy), x0 := wrap64 (s.x0 + sx) }
    else
      pure s
  if e2 ≤ dx then
    if s.y0 = y1 then
      throw LoopExit.yGuard
    else
      pure { s with error := wrap64 (s.error + dx), y0 := wrap64 (s.y0 + sy) }
  else
    pure s

/-- The first `fuel` iterations of the loop of `doLine` on 64-bit `int`: the points
passed to `f` in these iterations, and the `break` that left the loop, or `none` if the
loop is still running after them. -/
def doLineLoop64 (x1 y1 dx dy sx sy : Int) :
    Nat → LineState → List (Int × Int) × Option LoopExit
  | 0, _ => ([], none)
  | fuel + 1, s =>
    match doLineBody64 x1 y1 dx dy sx sy s with
    | .error e => ([(s.x0, s.y0)], some e)
    | .ok s' =>
      ((s.x0, s.y0) :: (doLineLoop64 x1 y1 dx dy sx sy fuel s').1,
        (doLineLoop64 x1 y1 dx dy sx sy fuel s').2)

/-- Go `doLine` on 64-bit `int`, observed for `fuel` iterations of its loop. Every
arithmetic operation of the source wraps: the two subtractions, the negations in `absi`
and in `dy := -absi(...)`, and the sum `dx + dy`. -/
def doLine64 (fuel : Nat) (x0 y0 x1 y1 : Int) : List (Int × Int) × Option LoopExit :=
  let dx := absi64 (wrap64 (x1 - x0))
  let sx : Int := if x0 < x1 then 1 else -1
  let dy := wrap64 (-absi64 (wrap64 (y1 - y0)))
  let sy : Int := if y0 < y1 then 1 else -1
  let error := wrap64 (dx + dy)
  doLineLoop64 x1 y1 dx dy sx sy fuel ⟨x0, y0, error⟩

/-- No-overflow bound for `doLine`: the four coordinates are 64-bit `int` values and the
two endpoints are less than `2 ^ 61` apart in `x` and in `y`. -/
def lineFits (x0 y0 x1 y1 : Int) : Prop :=
  int64 x0 ∧ int64 y0 ∧ int64 x1 ∧ int64 y1 ∧
    (x1 - x0).natAbs < 2 ^ 61 ∧ (y1 - y0).natAbs < 2 ^ 61

instance (x0 y0 x1 y1 : Int) : Decidable (lineFits x0 y0 x1 y1) := by
  unfold lineFits; infer_instance

/-- Invariant under which the 64-bit loop computes without wrapping: the loop invariant,
the error bounds of the major axis (or the target reached), and the no-overflow
bound. -/
def Safe64 (x1 y1 dx dy sx sy : Int) (s : LineState) : Prop :=
  LineInv x1 y1 dx dy sx sy s ∧
    (XMajor dx dy s ∨ YMajor dx dy s ∨ (s.x0 = x1 ∧ s.y0 = y1)) ∧
    dx < 2 ^ 61 ∧ -dy < 2 ^ 61 ∧ int64 s.x0 ∧ int64 s.y0 ∧ int64 x1 ∧ int64 y1

theorem doLineBody_target (x1 y1 dx dy sx sy : Int) (s : LineState)
    (h : s.x0 = x1 ∧ s.y0 = y1) :
    doLineBody x1 y1 dx dy sx sy s = .error LoopExit.target := by
  simp [doLineBody, h]
  rfl

theorem lineInv_cases {x1 y1 dx dy sx sy : Int} {s : LineState}
    (hinv : LineInv x1 y1 dx dy sx sy s) (hne : ¬ (s.x0 = x1 ∧ s.y0 = y1)) :
    (2 * s.error ≥ dy → s.x0 ≠ x1) ∧ (2 * s.error ≤ dx → s.y0 ≠ y1) ∧
      (2 * s.error ≥ dy ∨ 2 * s.error ≤ dx) := by
  obtain ⟨hsx, hsy, a, b, ha0, ha, hb0, hb, hx, hy, he⟩ := hinv
  have hab : 1 ≤ a ∨ 1 ≤ b := by
    by_contra hcon
    push_neg at hcon
    have ha' : a = 0 := by omega
    have hb' : b = 0 := by omega
    subst ha' hb'
    apply hne
    constructor <;> simp_all
  refine ⟨?_, ?_, ?_⟩
  · intro hge hx0
    have ha' : a = 0 := by
      rcases hsx with h | h <;> subst h <;> omega
    subst ha'
    have hb1 : 1 ≤ b := by omega
    have hprod : 0 ≤ (b - 1) * dx := mul_nonneg (by omega) (by omega)
    nlinarith
  · intro hle hy0
    have hb' : b = 0 := by
      rcases hsy with h | h <;> subst h <;> omega
    subst hb'
    have ha1 : 1 ≤ a := by omega
    have hprod : 0 ≤ (a - 1) * (-dy) := mul_nonneg (by omega) (by omega)
    nlinarith
  · omega

theorem doLineBody_next {x1 y1 dx dy sx sy : Int} {s : LineState}
    (hinv : LineInv x1 y1 dx dy sx sy s) (hne : ¬ (s.x0 = x1 ∧ s.y0 = y1)) :
    doLineBody x1 y1 dx dy sx sy s = .ok (lineNext dx dy sx sy s) := by
  obtain ⟨hx, hy, _⟩ := lineInv_cases hinv hne
  unfold doLineBody lineNext
  by_cases h1 : 2 * s.error ≥ dy
  · by_cases h2 : 2 * s.error ≤ dx
    · simp [hne, h1, h2, hx h1, hy h2]
      rfl
    · simp [hne, h1, h2, hx h1]
      rfl
  · have h2 : 2 * s.error ≤ dx := by
      rcases hinv with ⟨_, _, a, b, _, _, _, _, _, _, _⟩
      omega
    simp [hne, h1, h2, hy h2]
    rfl

theorem lineInv_next {x1 y1 dx dy sx sy : Int} {s : LineState}
    (hinv : LineInv x1 y1 dx dy sx sy s) (hne : ¬ (s.x0 = x1 ∧ s.y0 = y1)) :
    LineInv x1 y1 dx dy sx sy (lineNext dx dy sx sy s) := by
  obtain ⟨hx, hy, _⟩ := lineInv_cases hinv hne
  obtain ⟨hsx, hsy, a, b, ha0, ha, hb0, hb, hx1, hy1, he⟩ := hinv
  have hxa : 2 * s.error ≥ dy → 1 ≤ a := by
    intro h
    have := hx h
    by_contra hcon
    have ha' : a = 0 := by omega
    subst ha'
    simp at hx1
    exact this hx1.symm
  have hyb : 2 * s.error ≤ dx → 1 ≤ b := by
    intro h
    have := hy h
    by_contra hcon
    have hb' : b = 0 := by omega
    subst hb'
    simp at hy1
    exact this hy1.symm
  refine ⟨hsx, hsy, ?_⟩
  unfold lineNext
  by_cases h1 : 2 * s.error ≥ dy
  · by_cases h2 : 2 * s.error ≤ dx
    · simp only [h1, h2, if_true]
      have := hxa h1
      have := hyb h2
      refine ⟨a - 1, b - 1, by omega, by omega, by omega, by omega, ?_, ?_, ?_⟩
      · rw [hx1]; ring
      · rw [hy1]; ring
      · rw [he]; ring
    · simp only [h1, h2, if_true, if_false]
      have := hxa h1
      refine ⟨a - 1, b, by omega, by omega, by omega, by omega, ?_, ?_, ?_⟩
      · rw [hx1]; ring
      · rw [hy1]
      · rw [he]; ring
  · have h2 : 2 * s.error ≤ dx := by omega
    simp only [h1, if_false]
    have := hyb h2
    refine ⟨a, b - 1, by omega, by omega, by omega, by omega, ?_, ?_, ?_⟩
    · rw [hx1]
    · rw [hy1]; ring
    · rw [he]; ring

/-- The ways one iteration can move the current point: one unit towards the target in
`x`, in `y`, or in both. -/
theorem lineNext_move {x1 y1 dx dy sx sy : Int} {s : LineState}
    (hinv : LineInv x1 y1 dx dy sx sy s) (hne : ¬ (s.x0 = x1 ∧ s.y0 = y1)) :
    ((lineNext dx dy sx sy s).x0 = s.x0 + sx ∧ s.x0 ≠ x1 ∨
        (lineNext dx dy sx sy s).x0 = s.x0) ∧
      ((lineNext dx dy sx sy s).y0 = s.y0 + sy ∧ s.y0 ≠ y1 ∨
        (lineNext dx dy sx sy s).y0 = s.y0) ∧
      ((lineNext dx dy sx sy s).x0 ≠ s.x0 ∨ (lineNext dx dy sx sy s).y0 ≠ s.y0) := by
  obtain ⟨hx, hy, _⟩ := lineInv_cases hinv hne
  obtain ⟨hsx, hsy, a, b, ha0, ha, hb0, hb, hx1, hy1, he⟩ := hinv
  unfold lineNext
  by_cases h1 : 2 * s.error ≥ dy
  · by_cases h2 : 2 * s.error ≤ dx
    · rw [if_pos h1, if_pos h2]
      refine ⟨Or.inl ⟨rfl, hx h1⟩, Or.inl ⟨rfl, hy h2⟩, Or.inl ?_⟩
      rcases hsx with h | h <;> subst h <;> simp
    · rw [if_pos h1, if_neg h2]
      refine ⟨Or.inl ⟨rfl, hx h1⟩, Or.inr rfl, Or.inl ?_⟩
      rcases hsx with h | h <;> subst h <;> simp
  · have h2 : 2 * s.error ≤ dx := by omega
    rw [if_neg h1]
    refine ⟨Or.inr rfl, Or.inl ⟨rfl, hy h2⟩, Or.inr ?_⟩
    rcases hsy with h | h <;> subst h <;> simp

theorem lineDist_next {x1 y1 dx dy sx sy : Int} {s : LineState}
    (hinv : LineInv x1 y1 dx dy sx sy s) (hne : ¬ (s.x0 = x1 ∧ s.y0 = y1)) :
    lineDist x1 y1 (lineNext dx dy sx sy s) < lineDist x1 y1 s := by
  obtain ⟨mx, my, mxy⟩ := lineNext_move hinv hne
  obtain ⟨hsx, hsy, a, b, ha0, ha, hb0, hb, hx1, hy1, he⟩ := hinv
  unfold lineDist
  generalize (lineNext dx dy sx sy s).x0 = nx at *
  generalize (lineNext dx dy sx sy s).y0 = ny at *
  rcases hsx with h | h <;> rcases hsy with h' | h' <;> subst h h' <;> omega

/-! ## Runs of the loop -/

/-- Unfolding of the loop at the target: the callback is called once more and the
first `break` is taken. -/
theorem doLineLoop_target (x1 y1 dx dy sx sy : Int) (n : Nat) (s : LineState)
    (h : s.x0 = x1 ∧ s.y0 = y1) :
    doLineLoop x1 y1 dx dy sx sy (n + 1) s = some ([(s.x0, s.y0)], LoopExit.target) := by
  simp [doLineLoop, doLineBody_target x1 y1 dx dy sx sy s h]

/-- Unfolding of the loop away from the target, under the loop invariant. -/
theorem doLineLoop_next {x1 y1 dx dy sx sy : Int} (n : Nat) {s : LineState}
    (hinv : LineInv x1 y1 dx dy sx sy s) (hne : ¬ (s.x0 = x1 ∧ s.y0 = y1)) :
    doLineLoop x1 y1 dx dy sx sy (n + 1) s =
      (doLineLoop x1 y1 dx dy sx sy n (lineNext dx dy sx sy s)).map
        fun r => ((s.x0, s.y0) :: r.1, r.2) := by
  simp [doLineLoop, doLineBody_next hinv hne]

/-- A run that has a result keeps it when the budget grows. -/
theorem doLineLoop_mono (x1 y1 dx dy sx sy : Int) (n : Nat) :
    ∀ (s : LineState) (r : List (Int × Int) × LoopExit),
      doLineLoop x1 y1 dx dy sx sy n s = some r →
      ∀ k, doLineLoop x1 y1 dx dy sx sy (n + k) s = some r := by
  induction n with
  | zero => intro s r h; simp [doLineLoop] at h
  | succ n ih =>
    intro s r h k
    have hk : n + 1 + k = (n + k) + 1 := by omega
    rw [hk]
    simp only [doLineLoop] at h ⊢
    cases hb : doLineBody x1 y1 dx dy sx sy s with
    | error e => rw [hb] at h; simpa using h
    | ok s' =>
      rw [hb] at h
      simp only [Option.map_eq_some'] at h ⊢
      obtain ⟨r', hr', hrr⟩ := h
      exact ⟨r', ih s' r' hr' k, hrr⟩

/-- Induction principle for runs of the loop from a state satisfying the invariant:
the run leaves the loop at the target within `lineDist + 1` iterations, and any
property established at the target and preserved backwards along `lineNext` holds of
the emitted points. -/
theorem doLineLoop_run {x1 y1 dx dy sx sy : Int} (P : LineState → List (Int × Int) → Prop)
    (base : ∀ s, LineInv x1 y1 dx dy sx sy s → s.x0 = x1 → s.y0 = y1 → P s [(s.x0, s.y0)])
    (step : ∀ s pts, LineInv x1 y1 dx dy sx sy s → ¬ (s.x0 = x1 ∧ s.y0 = y1) →
      P (lineNext dx dy sx sy s) pts → P s ((s.x0, s.y0) :: pts)) (n : Nat) :
    ∀ s, LineInv x1 y1 dx dy sx sy s → lineDist x1 y1 s < n →
      ∃ pts, doLineLoop x1 y1 dx dy sx sy n s = some (pts, LoopExit.target) ∧ P s pts := by
  induction n with
  | zero => intro s _ h; omega
  | succ n ih =>
    intro s hinv hd
    by_cases ht : s.x0 = x1 ∧ s.y0 = y1
    · exact ⟨[(s.x0, s.y0)], doLineLoop_target x1 y1 dx dy sx sy n s ht,
        base s hinv ht.1 ht.2⟩
    · have hlt := lineDist_next hinv ht
      obtain ⟨pts, hrun, hP⟩ := ih (lineNext dx dy sx sy s) (lineInv_next hinv ht) (by omega)
      refine ⟨(s.x0, s.y0) :: pts, ?_, step s pts hinv ht hP⟩
      rw [doLineLoop_next n hinv ht, hrun]
      rfl

theorem absi_eq_natAbs (i : Int) : absi i = (i.natAbs : Int) := by
  unfold absi
  split <;> omega

/-- The variables `doLine` enters its loop with satisfy the loop invariant. -/
theorem lineInv_init (x0 y0 x1 y1 : Int) :
    LineInv x1 y1 (absi (x1 - x0)) (-absi (y1 - y0))
      (if x0 < x1 then 1 else -1) (if y0 < y1 then 1 else -1)
      ⟨x0, y0, absi (x1 - x0) + -absi (y1 - y0)⟩ := by
  refine ⟨?_, ?_, absi (x1 - x0), absi (y1 - y0), ?_, le_refl _, ?_, by omega, ?_, ?_, ?_⟩
  · split <;> simp
  · split <;> simp
  · rw [absi_eq_natAbs]; omega
  · rw [absi_eq_natAbs]; omega
  · simp only [absi]; split <;> split <;> omega
  · simp only [absi]; split <;> split <;> omega
  · simp only; ring

/-- Induction principle for `doLine`: every run leaves the loop through the first
`break`, for every budget from `lineBudget` on, and the emitted points satisfy any
property established at the target and preserved backwards along `lineNext`. -/
theorem doLine_run (x0 y0 x1 y1 : Int) (P : LineState → List (Int × Int) → Prop)
    (base : ∀ s, LineInv x1 y1 (absi (x1 - x0)) (-absi (y1 - y0))
        (if x0 < x1 then 1 else -1) (if y0 < y1 then 1 else -1) s →
      s.x0 = x1 → s.y0 = y1 → P s [(s.x0, s.y0)])
    (step : ∀ s pts, LineInv x1 y1 (absi (x1 - x0)) (-absi (y1 - y0))
        (if x0 < x1 then 1 else -1) (if y0 < y1 then 1 else -1) s →
      ¬ (s.x0 = x1 ∧ s.y0 = y1) →
      P (lineNext (absi (x1 - x0)) (-absi (y1 - y0))
        (if x0 < x1 then 1 else -1) (if y0 < y1 then 1 else -1) s) pts →
      P s ((s.x0, s.y0) :: pts)) :
    ∃ pts, (∀ k, doLineFuel (lineBudget x0 y0 x1 y1 + k) x0 y0 x1 y1
        = some (pts, LoopExit.target)) ∧
      P ⟨x0, y0, absi (x1 - x0) + -absi (y1 - y0)⟩ pts := by
  obtain ⟨pts, hrun, hP⟩ := doLineLoop_run P base step (lineBudget x0 y0 x1 y1)
    ⟨x0, y0, absi (x1 - x0) + -absi (y1 - y0)⟩ (lineInv_init x0 y0 x1 y1)
    (by simp [lineDist, lineBudget])
  exact ⟨pts, fun k => doLineLoop_mono _ _ _ _ _ _ _ _ _ hrun k, hP⟩

/-! ## Properties of the rasterizer -/

/-- Over unbounded integers, `doLine` leaves its loop through the first `break`
(never through one of the two inner ones), and the sequence of points passed to the
callback starts with `(x0, y0)` and ends with `(x1, y1)`. -/
theorem doLine_endpoints (x0 y0 x1 y1 : Int) :
    ∃ pts, doLine x0 y0 x1 y1 = some (pts, LoopExit.target) ∧
      pts.head? = some (x0, y0) ∧ pts.getLast? = some (x1, y1) := by
  obtain ⟨pts, hrun, hP⟩ := doLine_run x0 y0 x1 y1
    (fun s pts => pts.head? = some (s.x0, s.y0) ∧ pts.getLast? = some (x1, y1))
    (fun s _ hx hy => by simp [hx, hy])
    (fun s pts _ _ ih => by
      refine ⟨rfl, ?_⟩
      cases pts with
      | nil => simp at ih
      | cons q qs => rw [List.getLast?_cons_cons]; exact ih.2)
  exact ⟨pts, hrun 0, hP⟩

/-- Over unbounded integers, any two consecutive points passed to the callback
are 8-neighbours: distinct, and at most one apart in `x` and in `y`. -/
theorem doLine_connected (x0 y0 x1 y1 : Int) :
    ∃ pts, doLine x0 y0 x1 y1 = some (pts, LoopExit.target) ∧
      List.Chain' neighbour8 pts := by
  obtain ⟨pts, hrun, hP⟩ := doLine_run x0 y0 x1 y1
    (fun s pts => pts.head? = some (s.x0, s.y0) ∧ List.Chain' neighbour8 pts)
    (fun s _ _ _ => by simp)
    (fun s pts hinv hne ih => by
      refine ⟨rfl, ?_⟩
      cases pts with
      | nil => simp
      | cons q qs =>
        obtain ⟨hq, hch⟩ := ih
        simp only [List.head?_cons, Option.some.injEq] at hq
        refine List.Chain'.cons ?_ hch
        obtain ⟨mx, my, mxy⟩ := lineNext_move hinv hne
        obtain ⟨hsx, hsy, _⟩ := hinv
        subst hq
        refine ⟨?_, ?_, ?_⟩
        · rcases mx with ⟨mx, _⟩ | mx <;> rw [mx] <;> rcases hsx with h | h <;>
            rw [h] <;> simp
        · rcases my with ⟨my, _⟩ | my <;> rw [my] <;> rcases hsy with h | h <;>
            rw [h] <;> simp
        · intro heq
          rcases mxy with h | h
          · exact h (congrArg Prod.fst heq).symm
          · exact h (congrArg Prod.snd heq).symm)
  exact ⟨pts, hrun 0, hP.2⟩

/-- Over unbounded integers, no point is passed to the callback twice. -/
theorem doLine_nodup (x0 y0 x1 y1 : Int) :
    ∃ pts, doLine x0 y0 x1 y1 = some (pts, LoopExit.target) ∧ pts.Nodup := by
  obtain ⟨pts, hrun, hP⟩ := doLine_run x0 y0 x1 y1
    (fun s pts => pts.Nodup ∧
      ∀ p ∈ pts, (x1 - p.1).natAbs + (y1 - p.2).natAbs ≤ lineDist x1 y1 s)
    (fun s _ _ _ => by simp [lineDist])
    (fun s pts hinv hne ih => by
      have hlt := lineDist_next hinv hne
      obtain ⟨hnd, hle⟩ := ih
      refine ⟨List.nodup_cons.mpr ⟨?_, hnd⟩, ?_⟩
      · intro hmem
        have := hle _ hmem
        simp only [lineDist] at this hlt
        omega
      · intro p hp
        rcases List.mem_cons.mp hp with h | h
        · subst h; simp [lineDist]
        · have := hle p h
          omega)
  exact ⟨pts, hrun 0, hP.1⟩

/-- Claim C4. For every point `(x, y)`, `doLine(x, y, x, y, f)` calls `f` exactly once,
with `(x, y)`. -/
theorem doLine_degenerate (x y : Int) :
    doLine x y x y = some ([(x, y)], LoopExit.target) := by
  simp [doLine, doLineFuel, lineBudget, doLineLoop_target]

/-- Over unbounded integers the loop of `doLine` terminates: with every
iteration budget from `lineBudget` on, the run ends through the `break` taken at the
target with one and the same finite sequence of callback invocations, of at most
`lineBudget` points, and the target is not reached before the last of them. -/
theorem doLine_terminates (x0 y0 x1 y1 : Int) :
    ∃ pts, (∀ k, doLineFuel (lineBudget x0 y0 x1 y1 + k) x0 y0 x1 y1
        = some (pts, LoopExit.target)) ∧
      pts.length ≤ lineBudget x0 y0 x1 y1 ∧ (x1, y1) ∉ pts.dropLast := by
  obtain ⟨pts, hrun, hP⟩ := doLine_run x0 y0 x1 y1
    (fun s pts => pts ≠ [] ∧ pts.length ≤ lineDist x1 y1 s + 1 ∧ (x1, y1) ∉ pts.dropLast)
    (fun s _ _ _ => by simp)
    (fun s pts hinv hne ih => by
      have hlt := lineDist_next hinv hne
      obtain ⟨hnil, hlen, hmem⟩ := ih
      refine ⟨by simp, by simp only [List.length_cons]; omega, ?_⟩
      cases pts with
      | nil => exact absurd rfl hnil
      | cons q qs =>
        rw [List.dropLast_cons₂, List.mem_cons]
        rintro (h | h)
        · exact hne ⟨(congrArg Prod.fst h).symm, (congrArg Prod.snd h).symm⟩
        · exact hmem h)
  refine ⟨pts, hrun, ?_, hP.2.2⟩
  have := hP.2.1
  simpa [lineDist, lineBudget] using this

/-! ## Frame lemmas for `Update` -/

/-- Every run of `doLine` has a result, reached through the `break` at the target. -/
theorem doLine_strokePoints (x0 y0 x1 y1 : Int) :
    doLine x0 y0 x1 y1 = some (strokePoints x0 y0 x1 y1, LoopExit.target) := by
  obtain ⟨pts, hrun, -⟩ := doLine_run x0 y0 x1 y1 (fun _ _ => True)
    (fun _ _ _ _ => trivial) (fun _ _ _ _ _ => trivial)
  have h : doLine x0 y0 x1 y1 = some (pts, LoopExit.target) := hrun 0
  simp [strokePoints, h]

theorem zoom_fields (g : Game) (y : ℚ) :
    (g.zoom y).frame = g.frame ∧ (g.zoom y).pause = g.pause ∧
      (g.zoom y).active = g.active ∧ (g.zoom y).buff = g.buff ∧
      (g.zoom y).passes = g.passes ∧ (g.zoom y).shader = g.shader ∧
      (g.zoom y).images = g.images ∧ (g.zoom y).offsetx = g.offsetx ∧
      (g.zoom y).offsety = g.offsety ∧ (g.zoom y).mousePX = g.mousePX ∧
      (g.zoom y).mousePY = g.mousePY := by
  unfold Game.zoom
  split <;> simp

theorem pan_fields (g : Game) (mx my : Int) :
    (g.pan mx my).frame = g.frame ∧ (g.pan mx my).pause = g.pause ∧
      (g.pan mx my).active = g.active ∧ (g.pan mx my).buff = g.buff ∧
      (g.pan mx my).passes = g.passes ∧ (g.pan mx my).shader = g.shader ∧
      (g.pan mx my).images = g.images ∧ (g.pan mx my).scale = g.scale ∧
      (g.pan mx my).mousePX = g.mousePX ∧ (g.pan mx my).mousePY = g.mousePY := by
  simp [Game.pan]

theorem strokeActive_fields (g : Game) (mx my : Int) (c : RGBA) :
    (g.strokeActive mx my c).frame = g.frame ∧ (g.strokeActive mx my c).pause = g.pause ∧
      (g.strokeActive mx my c).active = g.active ∧ (g.strokeActive mx my c).buff = g.buff ∧
      (g.strokeActive mx my c).passes = g.passes ∧
      (g.strokeActive mx my c).shader = g.shader ∧
      (g.strokeActive mx my c).scale = g.scale ∧
      (g.strokeActive mx my c).offsetx = g.offsetx ∧
      (g.strokeActive mx my c).offsety = g.offsety ∧
      (g.strokeActive mx my c).mousePX = g.mousePX ∧
      (g.strokeActive mx my c).mousePY = g.mousePY := by
  simp [Game.strokeActive]

theorem buttons_fields (g : Game) (inp : Input) :
    (g.buttons inp).frame = g.frame ∧ (g.buttons inp).pause = g.pause ∧
      (g.buttons inp).active = g.active ∧ (g.buttons inp).buff = g.buff ∧
      (g.buttons inp).passes = g.passes ∧ (g.buttons inp).shader = g.shader ∧
      (g.buttons inp).scale = g.scale ∧
      (g.buttons inp).mousePX = g.mousePX ∧ (g.buttons inp).mousePY = g.mousePY := by
  have hs := fun c => strokeActive_fields g inp.mx inp.my c
  have hp := pan_fields g inp.mx inp.my
  unfold Game.buttons
  split_ifs <;> simp [hs, hp]

theorem clearKey_fields (g : Game) (k : Bool) :
    (g.clearKey k).frame = g.frame ∧ (g.clearKey k).pause = g.pause ∧
      (g.clearKey k).active = g.active ∧ (g.clearKey k).buff = g.buff ∧
      (g.clearKey k).passes = g.passes ∧ (g.clearKey k).shader = g.shader ∧
      (g.clearKey k).scale = g.scale ∧ (g.clearKey k).offsetx = g.offsetx ∧
      (g.clearKey k).offsety = g.offsety ∧ (g.clearKey k).mousePX = g.mousePX ∧
      (g.clearKey k).mousePY = g.mousePY := by
  unfold Game.clearKey
  split <;> simp

theorem pauseKey_fields (g : Game) (k : Bool) :
    (g.pauseKey k).frame = g.frame ∧
      (g.pauseKey k).pause = (if k then !g.pause else g.pause) ∧
      (g.pauseKey k).active = g.active ∧ (g.pauseKey k).buff = g.buff ∧
      (g.pauseKey k).passes = g.passes ∧ (g.pauseKey k).shader = g.shader ∧
      (g.pauseKey k).images = g.images ∧
      (g.pauseKey k).scale = g.scale ∧ (g.pauseKey k).offsetx = g.offsetx ∧
      (g.pauseKey k).offsety = g.offsety ∧ (g.pauseKey k).mousePX = g.mousePX ∧
      (g.pauseKey k).mousePY = g.mousePY := by
  unfold Game.pauseKey
  split <;> simp [*]

/-- What `Update` does, before the scheduler test, to the fields the scheduler and the
buffer swap depend on. -/
theorem inputStage_fields (g : Game) (inp : Input) :
    (g.inputStage inp).frame = (g.frame + 1) % 2 ^ 64 ∧
      (g.inputStage inp).pause = (if inp.keySpace then !g.pause else g.pause) ∧
      (g.inputStage inp).active = g.active ∧ (g.inputStage inp).buff = g.buff ∧
      (g.inputStage inp).passes = g.passes ∧ (g.inputStage inp).shader = g.shader ∧
      (g.inputStage inp).mousePX = inp.mx ∧ (g.inputStage inp).mousePY = inp.my := by
  unfold Game.inputStage
  obtain ⟨z1, z2, z3, z4, z5, z6, -⟩ :=
    zoom_fields ((((g.tick).pauseKey inp.keySpace).clearKey inp.keyC).buttons inp) inp.wheelY
  obtain ⟨b1, b2, b3, b4, b5, b6, -⟩ :=
    buttons_fields (((g.tick).pauseKey inp.keySpace).clearKey inp.keyC) inp
  obtain ⟨c1, c2, c3, c4, c5, c6, -⟩ :=
    clearKey_fields ((g.tick).pauseKey inp.keySpace) inp.keyC
  obtain ⟨p1, p2, p3, p4, p5, p6, -⟩ := pauseKey_fields g.tick inp.keySpace
  simp only [Game.trace, z1, z2, z3, z4, z5, z6, b1, b2, b3, b4, b5, b6,
    c1, c2, c3, c4, c5, c6, p1, p2, p3, p4, p5, p6]
  simp [Game.tick]

theorem Update_of_passDue {g : Game} {inp : Input} (h : passDue g inp) :
    g.Update inp = (g.inputStage inp).transformPass := by
  obtain ⟨hf, hp, -⟩ := inputStage_fields g inp
  unfold passDue at h
  unfold Game.Update
  simp only [hf, hp]
  rw [if_pos]
  simpa using h

theorem Update_of_not_passDue {g : Game} {inp : Input} (h : ¬ passDue g inp) :
    g.Update inp = g.inputStage inp := by
  obtain ⟨hf, hp, -⟩ := inputStage_fields g inp
  unfold passDue at h
  unfold Game.Update
  simp only [hf, hp]
  rw [if_neg]
  simpa using h

/-- The scheduler-related fields after one `Update`. -/
theorem Update_fields (g : Game) (inp : Input) :
    (g.Update inp).frame = (g.frame + 1) % 2 ^ 64 ∧
      (g.Update inp).pause = (if inp.keySpace then !g.pause else g.pause) ∧
      (g.Update inp).passes = (if passDue g inp then g.passes + 1 else g.passes) ∧
      (g.Update inp).active = (if passDue g inp then g.buff else g.active) ∧
      (g.Update inp).buff = (if passDue g inp then g.active else g.buff) ∧
      (g.Update inp).shader = g.shader := by
  obtain ⟨hf, hp, ha, hb, hn, hs, -⟩ := inputStage_fields g inp
  by_cases h : passDue g inp
  · rw [Update_of_passDue h]
    simp [Game.transformPass, h, hf, hp, ha, hb, hn, hs]
  · rw [Update_of_not_passDue h]
    simp [h, hf, hp, ha, hb, hn, hs]

theorem run_nil (g : Game) : g.run [] = g := rfl

theorem run_cons (g : Game) (inp : Input) (inps : List Input) :
    g.run (inp :: inps) = (g.Update inp).run inps := rfl

theorem run_append (g : Game) (as bs : List Input) :
    g.run (as ++ bs) = (g.run as).run bs := by
  simp [Game.run, List.foldl_append]

/-- The counter after a sequence of steps: the number of steps is added modulo `2 ^ 64`. -/
theorem run_frame (inps : List Input) :
    ∀ g : Game, (g.run inps).frame = (g.frame + inps.length) % 2 ^ 64 ∨
      (inps = [] ∧ (g.run inps).frame = g.frame) := by
  induction inps with
  | nil => intro g; right; exact ⟨rfl, rfl⟩
  | cons inp inps ih =>
    intro g
    left
    rw [run_cons]
    have hf := (Update_fields g inp).1
    rcases ih (g.Update inp) with h | ⟨h, h'⟩
    · rw [h, hf, List.length_cons]
      omega
    · subst h
      rw [h', hf]
      simp

/-- The pause flag is only changed by a press of the pause key. -/
theorem run_pause (inps : List Input) :
    ∀ g : Game, (∀ i ∈ inps, i.keySpace = false) → (g.run inps).pause = g.pause := by
  induction inps with
  | nil => intro g _; rfl
  | cons inp inps ih =>
    intro g hk
    rw [run_cons, ih (g.Update inp) (fun i hi => hk i (List.mem_cons_of_mem _ hi)),
      (Update_fields g inp).2.1, hk inp (List.mem_cons_self _ _)]
    rfl

/-- A run from an unpaused state in which the pause key is never pressed and the
counter stays below the cadence: no pass fires and the buffers keep their roles. -/
theorem run_quiet (inps : List Input) :
    ∀ g : Game, g.pause = false → (∀ i ∈ inps, i.keySpace = false) →
      g.frame + inps.length < 10 →
      (g.run inps).frame = g.frame + inps.length ∧ (g.run inps).pause = false ∧
        (g.run inps).passes = g.passes ∧ (g.run inps).active = g.active ∧
        (g.run inps).buff = g.buff ∧ (g.run inps).shader = g.shader := by
  induction inps with
  | nil => intro g hp _ _; simp [run_nil, hp]
  | cons inp inps ih =>
    intro g hp hk hlen
    rw [List.length_cons] at hlen
    have hkey : inp.keySpace = false := hk inp (List.mem_cons_self _ _)
    have hnot : ¬ passDue g inp := by
      unfold passDue
      rw [Nat.mod_eq_of_lt (by omega : g.frame + 1 < 2 ^ 64)]
      omega
    obtain ⟨hf, hp', hn, ha, hb, hs⟩ := Update_fields g inp
    rw [Nat.mod_eq_of_lt (by omega : g.frame + 1 < 2 ^ 64)] at hf
    simp only [hkey, hp, hnot, if_false, Bool.false_eq_true] at hp' hn ha hb
    obtain ⟨h1, h2, h3, h4, h5, h6⟩ := ih (g.Update inp) hp'
      (fun i hi => hk i (List.mem_cons_of_mem _ hi)) (by rw [hf]; omega)
    rw [run_cons, List.length_cons]
    refine ⟨by rw [h1, hf]; omega, h2, by rw [h3, hn], by rw [h4, ha], by rw [h5, hb],
      by rw [h6, hs]⟩

/-! ## Strokes -/

theorem foldl_Set_pix (c : RGBA) (p : Int × Int) (pts : List (Int × Int)) :
    ∀ img : Image, ((pts.foldl (fun im q => im.Set q.1 q.2 c) img).pix p) =
      if p ∈ pts ∧ inBounds p then c else img.pix p := by
  induction pts with
  | nil => intro img; simp
  | cons q qs ih =>
    intro img
    rw [List.foldl_cons, ih]
    by_cases hb : inBounds p
    · by_cases hq : p ∈ qs
      · simp [hb, hq]
      · by_cases hpq : p = q
        · subst hpq
          simp [hb, hq, Image.Set]
        · simp [hb, hq, hpq, Image.Set]
    · simp [hb, Image.Set]
      intro h1 h2
      rw [h1] at hb
      exact absurd h2 hb

/-- A stroke sets exactly the visited pixels of the canvas, and leaves the others. -/
theorem stroke_pix (img : Image) (x0 y0 x1 y1 : Int) (c : RGBA) (p : Int × Int) :
    (img.stroke x0 y0 x1 y1 c).pix p =
      if p ∈ strokePoints x0 y0 x1 y1 ∧ inBounds p then c else img.pix p := by
  unfold Image.stroke
  exact foldl_Set_pix c p _ img

theorem canvas_congr {g h : Game} (hs : g.scale = h.scale) (hx : g.offsetx = h.offsetx)
    (hy : g.offsety = h.offsety) (x : Int) :
    g.canvasX x = h.canvasX x ∧ g.canvasY x = h.canvasY x := by
  simp [Game.canvasX, Game.canvasY, hs, hx, hy]

/-- The images after the input handling of a step in which a stroke is made with
colour `c`: the active image is cleared if the clear key is pressed, and then the
stroke from the mapped current pointer position to the mapped previous one is written
into it. -/
theorem strokeActive_images (g : Game) (inp : Input) (c : RGBA) :
    ((((g.tick).pauseKey inp.keySpace).clearKey inp.keyC).strokeActive
        inp.mx inp.my c).images =
      Function.update g.images g.active
        ((if inp.keyC then (g.images g.active).Clear else g.images g.active).stroke
          (g.canvasX inp.mx) (g.canvasY inp.my) (g.canvasX g.mousePX) (g.canvasY g.mousePY)
          c) := by
  obtain ⟨-, -, c3, -, -, -, c7, c8, c9, c10, c11⟩ :=
    clearKey_fields ((g.tick).pauseKey inp.keySpace) inp.keyC
  obtain ⟨-, -, p3, -, -, -, p7, p8, p9, p10, p11, p12⟩ := pauseKey_fields g.tick inp.keySpace
  have hcong := canvas_congr (g := ((g.tick).pauseKey inp.keySpace).clearKey inp.keyC)
    (h := g) (by rw [c7, p8]; rfl) (by rw [c8, p9]; rfl) (by rw [c9, p10]; rfl)
  have hpx : (((g.tick).pauseKey inp.keySpace).clearKey inp.keyC).mousePX = g.mousePX := by
    rw [c10, p11]; rfl
  have hpy : (((g.tick).pauseKey inp.keySpace).clearKey inp.keyC).mousePY = g.mousePY := by
    rw [c11, p12]; rfl
  have hact : ((g.tick).pauseKey inp.keySpace).active = g.active := by rw [p3]; rfl
  have himg : ((g.tick).pauseKey inp.keySpace).images = g.images := by rw [p7]; rfl
  unfold Game.strokeActive
  simp only [(hcong _).1, (hcong _).2, hpx, hpy, c3, hact]
  unfold Game.clearKey
  cases inp.keyC
  · simp [himg, hact]
  · simp [himg, hact]

theorem inputStage_images (g : Game) (inp : Input) :
    (g.inputStage inp).images =
      ((((g.tick).pauseKey inp.keySpace).clearKey inp.keyC).buttons inp).images := by
  unfold Game.inputStage
  simp only [Game.trace]
  exact (zoom_fields _ _).2.2.2.2.2.2.1

/-- The image that is active when a step begins is not touched by the transform pass
of that step, when `active` and `buff` are different images. -/
theorem Update_images_active (g : Game) (inp : Input) (hne : g.active ≠ g.buff) :
    (g.Update inp).images g.active = (g.inputStage inp).images g.active := by
  obtain ⟨-, -, ia, ib, -⟩ := inputStage_fields g inp
  by_cases h : passDue g inp
  · rw [Update_of_passDue h]
    simp only [Game.transformPass]
    rw [ib, Function.update_noteq hne, Function.update_noteq hne]
  · rw [Update_of_not_passDue h]

/-- At scale 1 and offset 0 the mapper is the identity. -/
theorem canvas_unit (g : Game) (hs : g.scale = 1) (hx : g.offsetx = 0) (hy : g.offsety = 0)
    (x : Int) : g.canvasX x = x ∧ g.canvasY x = x := by
  constructor
  · simp [Game.canvasX, hs, hx, goInt, WIDTH]
  · simp [Game.canvasY, hs, hy, goInt, HEIGHT]

/-- The active image after a step in which the left button (`c` the paint colour) or,
the left button being up, the right button (`c` the erase colour) is held. -/
theorem Update_stroke_pix (g : Game) (inp : Input) (c : RGBA) (hne : g.active ≠ g.buff)
    (hb : (inp.left = true ∧ c = paintColor) ∨
      (inp.left = false ∧ inp.right = true ∧ c = eraseColor)) (p : Int × Int) :
    ((g.Update inp).images g.active).pix p =
      if p ∈ strokePoints (g.canvasX inp.mx) (g.canvasY inp.my)
          (g.canvasX g.mousePX) (g.canvasY g.mousePY) ∧ inBounds p then c
      else if inp.keyC then eraseColor else (g.images g.active).pix p := by
  have hbut : (((g.tick).pauseKey inp.keySpace).clearKey inp.keyC).buttons inp =
      (((g.tick).pauseKey inp.keySpace).clearKey inp.keyC).strokeActive inp.mx inp.my c := by
    unfold Game.buttons
    rcases hb with ⟨h1, h2⟩ | ⟨h1, h2, h3⟩
    · rw [if_pos h1, h2]
    · rw [h1, if_pos h2, h3]; rfl
  rw [Update_images_active g inp hne, inputStage_images, hbut, strokeActive_images,
    Function.update_same, stroke_pix]
  cases inp.keyC <;> simp [Image.Clear]

/-! ## Properties of `Update` -/

/-- Counterexample to claim C6 as stated. From the state built in `main`, the canvas is
cleared with the pointer at `(100, 10)` and then the paint button is held with the
pointer at `(130, 19)`, at scale 1 and offset 0. The rasterizer visits `(105, 12)` on
the line from the previous position `(100, 10)` to the current one `(130, 19)`, but the
step leaves that pixel of the active image unpainted. -/
theorem paint_not_from_previous :
    (105, 12) ∈ strokePoints 100 10 130 19 ∧
      (((initGame fun img => img).run dragInputs).images
        ((initGame fun img => img).run dragInputs).active).pix (105, 12) = eraseColor ∧
      (((initGame fun img => img).run dragInputs).images
        ((initGame fun img => img).run dragInputs).active).pix (105, 12) ≠ paintColor := by
  have hact : ((initGame fun img => img).run dragInputs).active = ImgRef.first := by decide
  have hrun : (initGame fun img => img).run dragInputs =
      ((initGame fun img => img).Update ⟨100, 10, false, true, false, false, false, 0⟩).Update
        ⟨130, 19, false, false, true, false, false, 0⟩ := rfl
  have hpix : (((initGame fun img => img).run dragInputs).images
      ((initGame fun img => img).run dragInputs).active).pix (105, 12) = eraseColor := by
    rw [hact, hrun]
    have h := Update_stroke_pix
      ((initGame fun img => img).Update ⟨100, 10, false, true, false, false, false, 0⟩)
      ⟨130, 19, false, false, true, false, false, 0⟩ paintColor (by decide)
      (Or.inl ⟨rfl, rfl⟩) (105, 12)
    have hc := canvas_unit
      ((initGame fun img => img).Update ⟨100, 10, false, true, false, false, false, 0⟩)
      rfl (by decide) (by decide)
    simp only [(hc _).1, (hc _).2] at h
    have ha : ((initGame fun img => img).Update
        ⟨100, 10, false, true, false, false, false, 0⟩).active = ImgRef.first := by decide
    rw [ha] at h
    rw [h]
    have hx : ((initGame fun img => img).Update
        ⟨100, 10, false, true, false, false, false, 0⟩).mousePX = 100 := rfl
    have hy : ((initGame fun img => img).Update
        ⟨100, 10, false, true, false, false, false, 0⟩).mousePY = 10 := rfl
    rw [hx, hy]
    have hnot : (105, 12) ∉ strokePoints 130 19 100 10 := by decide
    simp only [hnot, false_and, if_false]
    rfl
  refine ⟨by decide, hpix, ?_⟩
  rw [hpix]
  decide

/-- Claim C6, amended. In a Paint step (left button held, `active` and `buff` different
images), the pixels of the active image written with the paint colour are exactly the
points inside the canvas that the rasterizer visits for the line from the current
canvas-space pointer position (start) to the previous one (target); every other pixel
keeps its value, or is transparent if the clear key was pressed in this step. -/
theorem paint_step (g : Game) (inp : Input) (hleft : inp.left = true)
    (hne : g.active ≠ g.buff) (p : Int × Int) :
    ((g.Update inp).images g.active).pix p =
      if p ∈ strokePoints (g.canvasX inp.mx) (g.canvasY inp.my)
          (g.canvasX g.mousePX) (g.canvasY g.mousePY) ∧ inBounds p then paintColor
      else if inp.keyC then eraseColor else (g.images g.active).pix p :=
  Update_stroke_pix g inp paintColor hne (Or.inl ⟨hleft, rfl⟩) p

/-- Witness for claim C6: the drag of `dragInputs`, at the pixel `(105, 11)`. -/
theorem paint_step_witness :
    (⟨130, 19, false, false, true, false, false, 0⟩ : Input).left = true ∧
      ((initGame fun img => img).Update
        ⟨100, 10, false, true, false, false, false, 0⟩).active ≠
      ((initGame fun img => img).Update
        ⟨100, 10, false, true, false, false, false, 0⟩).buff ∧
      (((((initGame fun img => img).Update
          ⟨100, 10, false, true, false, false, false, 0⟩).Update
          ⟨130, 19, false, false, true, false, false, 0⟩).images
        ((initGame fun img => img).Update
          ⟨100, 10, false, true, false, false, false, 0⟩).active).pix (105, 11) =
        if (105, 11) ∈ strokePoints
            (((initGame fun img => img).Update
              ⟨100, 10, false, true, false, false, false, 0⟩).canvasX 130)
            (((initGame fun img => img).Update
              ⟨100, 10, false, true, false, false, false, 0⟩).canvasY 19)
            (((initGame fun img => img).Update
              ⟨100, 10, false, true, false, false, false, 0⟩).canvasX
              ((initGame fun img => img).Update
                ⟨100, 10, false, true, false, false, false, 0⟩).mousePX)
            (((initGame fun img => img).Update
              ⟨100, 10, false, true, false, false, false, 0⟩).canvasY
              ((initGame fun img => img).Update
                ⟨100, 10, false, true, false, false, false, 0⟩).mousePY) ∧
            inBounds (105, 11) then paintColor
        else if (⟨130, 19, false, false, true, false, false, 0⟩ : Input).keyC then eraseColor
        else ((((initGame fun img => img).Update
          ⟨100, 10, false, true, false, false, false, 0⟩).images
            ((initGame fun img => img).Update
              ⟨100, 10, false, true, false, false, false, 0⟩).active).pix (105, 11))) :=
  ⟨rfl, by decide,
    paint_step ((initGame fun img => img).Update ⟨100, 10, false, true, false, false, false, 0⟩)
      ⟨130, 19, false, false, true, false, false, 0⟩ rfl (by decide) (105, 11)⟩

/-- Claim C7. For every state and every input, one `Update` step runs the transform pass
if and only if the counter after this step's increment is a multiple of 10 and the
pause flag after this step's toggle handling is off (`passDue`). When it runs, `active`
and `buff` are swapped and (the two being different images) the new active image is the
shader's image of the active image as left by this step's input handling; otherwise
`active` and `buff` keep their roles. -/
theorem Update_pass_iff (g : Game) (inp : Input) :
    ((g.Update inp).passes = g.passes + 1 ↔ passDue g inp) ∧
      ((g.Update inp).passes = g.passes ↔ ¬ passDue g inp) ∧
      (g.Update inp =
        if passDue g inp then (g.inputStage inp).transformPass else g.inputStage inp) ∧
      ((g.Update inp).active = if passDue g inp then g.buff else g.active) ∧
      ((g.Update inp).buff = if passDue g inp then g.active else g.buff) ∧
      (passDue g inp → g.active ≠ g.buff →
        (g.Update inp).images (g.Update inp).active =
          g.shader ((g.inputStage inp).images g.active)) := by
  obtain ⟨-, -, hn, ha, hb, -⟩ := Update_fields g inp
  obtain ⟨-, -, ia, ib, -, is, -⟩ := inputStage_fields g inp
  refine ⟨?_, ?_, ?_, ha, hb, ?_⟩
  · rw [hn]; split_ifs with h <;> simp [h]
  · rw [hn]; split_ifs with h <;> simp [h]
  · split_ifs with h
    · exact Update_of_passDue h
    · exact Update_of_not_passDue h
  · intro h hne
    rw [Update_of_passDue h]
    simp only [Game.transformPass]
    rw [ia, ib, is]
    simp only [Function.update_idem, Function.update_same]
    rw [Function.update_noteq hne]

/-- Counterexample to claim C8 as stated: after `2 ^ 64` steps from the state built in
`main` the `uint64` counter has wrapped around to 0 and no longer equals the number of
steps taken; and step number `2 ^ 64 + 10`, whose index is not a multiple of 10, fires
a pass. -/
theorem frame_wraps :
    ((initGame fun img => img).run (List.replicate (2 ^ 64) (idleInput 0 0))).frame = 0 ∧
      ((initGame fun img => img).run (List.replicate (2 ^ 64) (idleInput 0 0))).frame ≠
        (List.replicate (2 ^ 64) (idleInput 0 0)).length ∧
      ((((initGame fun img => img).run
          (List.replicate (2 ^ 64 + 9) (idleInput 0 0))).Update (idleInput 0 0)).passes =
        ((initGame fun img => img).run
          (List.replicate (2 ^ 64 + 9) (idleInput 0 0))).passes + 1 ∧
        ((List.replicate (2 ^ 64 + 9) (idleInput 0 0)).length + 1) % 10 ≠ 0) := by
  have h0 : (initGame fun img => img).frame = 0 := rfl
  have hf : ∀ n : Nat, 0 < n →
      ((initGame fun img => img).run (List.replicate n (idleInput 0 0))).frame
        = n % 2 ^ 64 := by
    intro n hn
    rcases run_frame (List.replicate n (idleInput 0 0)) (initGame fun img => img)
      with h | ⟨hnil, -⟩
    · rw [h, h0, List.length_replicate, Nat.zero_add]
    · have := congrArg List.length hnil
      rw [List.length_replicate] at this
      simp only [List.length_nil] at this
      omega
  refine ⟨?_, ?_, ?_, ?_⟩
  · rw [hf _ (by norm_num)]; norm_num
  · rw [hf _ (by norm_num), List.length_replicate]; norm_num
  · have hp := run_pause (List.replicate (2 ^ 64 + 9) (idleInput 0 0))
      (initGame fun img => img) (fun i hi => by rw [List.eq_of_mem_replicate hi]; rfl)
    have hdue : passDue ((initGame fun img => img).run
        (List.replicate (2 ^ 64 + 9) (idleInput 0 0))) (idleInput 0 0) := by
      unfold passDue
      rw [hf _ (by norm_num), hp]
      constructor
      · norm_num
      · rfl
    rw [(Update_fields _ _).2.2.1, if_pos hdue]
  · rw [List.length_replicate]; norm_num

/-- Claim C8, amended. Every `Update` step advances the frame counter by exactly one
modulo `2 ^ 64`, whatever the pause flag and the inputs are. Hence after any input
sequence applied from the state built in `main`, `frame` is the number of steps taken
modulo `2 ^ 64`, and a pass can fire on the next step only if that step's index modulo
`2 ^ 64` is a multiple of 10, however often pause was toggled before; for fewer than
`2 ^ 64` steps, `frame` is the number of steps and the index itself is a multiple
of 10. -/
theorem frame_counts_steps (shader : Image → Image) (inps : List Input) (inp : Input) :
    (∀ (g : Game) (i : Input), (g.Update i).frame = (g.frame + 1) % 2 ^ 64) ∧
      ((initGame shader).run inps).frame = inps.length % 2 ^ 64 ∧
      ((((initGame shader).run inps).Update inp).passes =
          ((initGame shader).run inps).passes + 1 →
        ((inps.length + 1) % 2 ^ 64) % 10 = 0) ∧
      (inps.length + 1 < 2 ^ 64 →
        ((initGame shader).run inps).frame = inps.length ∧
        ((((initGame shader).run inps).Update inp).passes =
            ((initGame shader).run inps).passes + 1 →
          (inps.length + 1) % 10 = 0)) := by
  have hframe : ((initGame shader).run inps).frame = inps.length % 2 ^ 64 := by
    have h0 : (initGame shader).frame = 0 := rfl
    rcases run_frame inps (initGame shader) with h | ⟨hnil, h⟩
    · rw [h, h0, Nat.zero_add]
    · rw [h, h0, hnil]; rfl
  have hfire : (((initGame shader).run inps).Update inp).passes =
      ((initGame shader).run inps).passes + 1 → ((inps.length + 1) % 2 ^ 64) % 10 = 0 := by
    intro h
    have hn := (Update_fields ((initGame shader).run inps) inp).2.2.1
    by_cases hd : passDue ((initGame shader).run inps) inp
    · have := hd.1
      rw [hframe] at this
      rw [← this]
      congr 1
      omega
    · rw [if_neg hd] at hn
      omega
  refine ⟨fun g i => (Update_fields g i).1, hframe, hfire, ?_⟩
  intro hlt
  refine ⟨by rw [hframe]; exact Nat.mod_eq_of_lt (by omega), fun h => ?_⟩
  have := hfire h
  rwa [Nat.mod_eq_of_lt hlt] at this

/-- Claim C9. From the state built in `main`, after 10 `Update` steps in which the pause
key is never pressed, the transform pass has run exactly once: the pass count is 0
after each of the first 9 steps and 1 after the 10th, and `active` and `buff` are
swapped relative to the initial state. -/
theorem ten_steps_one_pass (shader : Image → Image) (inps : List Input)
    (hlen : inps.length = 10) (hkeys : ∀ i ∈ inps, i.keySpace = false) :
    (∀ k, k ≤ 9 → ((initGame shader).run (inps.take k)).passes = 0) ∧
      ((initGame shader).run inps).passes = 1 ∧
      ((initGame shader).run inps).active = (initGame shader).buff ∧
      ((initGame shader).run inps).buff = (initGame shader).active ∧
      (initGame shader).active ≠ (initGame shader).buff := by
  have hq : ∀ k, k ≤ 9 →
      ((initGame shader).run (inps.take k)).frame = k ∧
      ((initGame shader).run (inps.take k)).pause = false ∧
      ((initGame shader).run (inps.take k)).passes = 0 ∧
      ((initGame shader).run (inps.take k)).active = ImgRef.first ∧
      ((initGame shader).run (inps.take k)).buff = ImgRef.second := by
    intro k hk
    have hl : (inps.take k).length = k := by rw [List.length_take]; omega
    obtain ⟨h1, h2, h3, h4, h5, -⟩ := run_quiet (inps.take k) (initGame shader) rfl
      (fun i hi => hkeys i (List.mem_of_mem_take hi)) (by rw [hl]; show 0 + k < 10; omega)
    rw [hl] at h1
    exact ⟨by rw [h1]; show 0 + k = k; omega, h2, h3, h4, h5⟩
  refine ⟨fun k hk => (hq k hk).2.2.1, ?_⟩
  obtain ⟨h1, h2, h3, h4, h5⟩ := hq 9 (le_refl 9)
  have hsplit : inps = inps.take 9 ++ inps.drop 9 := (List.take_append_drop 9 inps).symm
  obtain ⟨x, hx⟩ : ∃ x, inps.drop 9 = [x] := by
    have : (inps.drop 9).length = 1 := by rw [List.length_drop]; omega
    exact List.length_eq_one.mp this
  have hxk : x.keySpace = false := by
    apply hkeys
    rw [hsplit, hx]
    simp
  have hdue : passDue ((initGame shader).run (inps.take 9)) x := by
    unfold passDue
    rw [h1, h2, hxk]
    decide
  obtain ⟨-, -, hn, ha, hb, -⟩ := Update_fields ((initGame shader).run (inps.take 9)) x
  simp only [hdue, if_true, h3, h4, h5] at hn ha hb
  have hrun : (initGame shader).run inps =
      ((initGame shader).run (inps.take 9)).Update x := by
    conv_lhs => rw [hsplit, hx, run_append]
    rfl
  rw [hrun]
  exact ⟨hn, ha, hb, fun h => ImgRef.noConfusion h⟩

/-- Witness for claim C9: ten steps with the pointer resting at the origin. -/
theorem ten_steps_one_pass_witness :
    (List.replicate 10 (idleInput 0 0)).length = 10 ∧
      (∀ i ∈ List.replicate 10 (idleInput 0 0), i.keySpace = false) ∧
      ((initGame fun img => img).run (List.replicate 10 (idleInput 0 0))).passes = 1 :=
  ⟨by decide, by decide,
    (ten_steps_one_pass (fun img => img) (List.replicate 10 (idleInput 0 0))
      (by decide) (by decide)).2.1⟩

/-- Claim C10, evaluated at a failing run. From the state built in `main`: zoom in to
scale 2, pan with the middle button to `offsetx = 500` (within the clamp range
`[0, 512]` of scale 2), zoom back out to scale 1. The zoom changes `scale` without
clamping the offsets again, so the final state has `scale = 1` and `offsetx = 500`,
outside the range `[0, WIDTH - int(WIDTH/scale)] = [0, 0]`. -/
theorem zoom_out_breaks_clamp :
    ((initGame fun img => img).run zoomPanInputs).scale = 1 ∧
      ((initGame fun img => img).run zoomPanInputs).offsetx = 500 ∧
      WIDTH - goInt ((WIDTH : ℚ) / ((initGame fun img => img).run zoomPanInputs).scale) = 0 ∧
      ¬ (((initGame fun img => img).run zoomPanInputs).offsetx ≤
        WIDTH - goInt ((WIDTH : ℚ) / ((initGame fun img => img).run zoomPanInputs).scale)) := by
  have hs : ((initGame fun img => img).run zoomPanInputs).scale = 1 := by
    simp [zoomPanInputs, Game.run, Game.Update, Game.inputStage, Game.tick, Game.pauseKey,
      Game.clearKey, Game.buttons, Game.zoom, Game.trace, Game.pan, initGame, goInt,
      WIDTH, HEIGHT]
    norm_num
  have ht : Int.tdiv 1000 2 = 500 := by decide
  have hx : ((initGame fun img => img).run zoomPanInputs).offsetx = 500 := by
    simp [zoomPanInputs, Game.run, Game.Update, Game.inputStage, Game.tick, Game.pauseKey,
      Game.clearKey, Game.buttons, Game.zoom, Game.trace, Game.pan, initGame, goInt,
      WIDTH, HEIGHT, ht]
    norm_num
  have hw : WIDTH - goInt ((WIDTH : ℚ) / 1) = 0 := by
    simp [goInt, WIDTH]
  refine ⟨hs, hx, ?_, ?_⟩
  · rw [hs]; exact hw
  · rw [hs, hx, hw]; decide

/-! ## The major axis and the error term -/

theorem xMajor_next {dx dy : Int} (sx sy : Int) {s : LineState} (h : XMajor dx dy s) :
    XMajor dx dy (lineNext dx dy sx sy s) ∧ (lineNext dx dy sx sy s).x0 = s.x0 + sx := by
  obtain ⟨h0, h1, h2, h3⟩ := h
  unfold lineNext XMajor
  have hc : 2 * s.error ≥ dy := by omega
  rw [if_pos hc]
  by_cases hd : 2 * s.error ≤ dx
  · rw [if_pos hd]
    refine ⟨⟨h0, h1, ?_, ?_⟩, rfl⟩ <;> simp only <;> omega
  · rw [if_neg hd]
    refine ⟨⟨h0, h1, ?_, ?_⟩, rfl⟩ <;> simp only <;> omega

theorem yMajor_next {dx dy : Int} (sx sy : Int) {s : LineState} (h : YMajor dx dy s) :
    YMajor dx dy (lineNext dx dy sx sy s) ∧ (lineNext dx dy sx sy s).y0 = s.y0 + sy := by
  obtain ⟨h0, h1, h2, h3⟩ := h
  unfold lineNext YMajor
  by_cases hc : 2 * s.error ≥ dy
  · have hd : 2 * s.error ≤ dx := by omega
    rw [if_pos hc, if_pos hd]
    refine ⟨⟨h0, h1, ?_, ?_⟩, rfl⟩ <;> simp only <;> omega
  · rw [if_neg hc]
    refine ⟨⟨h0, h1, ?_, ?_⟩, rfl⟩ <;> simp only <;> omega

/-- The state `doLine` enters its loop with satisfies the bounds of its major axis,
unless the two endpoints coincide. -/
theorem major_init (x0 y0 x1 y1 : Int) :
    XMajor (absi (x1 - x0)) (-absi (y1 - y0)) ⟨x0, y0, absi (x1 - x0) + -absi (y1 - y0)⟩ ∨
      YMajor (absi (x1 - x0)) (-absi (y1 - y0)) ⟨x0, y0, absi (x1 - x0) + -absi (y1 - y0)⟩ ∨
      (x0 = x1 ∧ y0 = y1) := by
  unfold XMajor YMajor
  rw [absi_eq_natAbs, absi_eq_natAbs]
  simp only
  omega

/-- A move in `x` under the loop invariant shortens the remaining distance in `x` by
one; likewise in `y`. -/
theorem lineInv_natAbs {x1 y1 dx dy sx sy : Int} {s : LineState}
    (hinv : LineInv x1 y1 dx dy sx sy s) :
    (s.x0 ≠ x1 → (x1 - s.x0).natAbs = (x1 - (s.x0 + sx)).natAbs + 1) ∧
      (s.y0 ≠ y1 → (y1 - s.y0).natAbs = (y1 - (s.y0 + sy)).natAbs + 1) := by
  obtain ⟨hsx, hsy, a, b, ha0, ha, hb0, hb, hx1, hy1, -⟩ := hinv
  constructor
  · intro hne
    rcases hsx with h | h <;> subst h <;> omega
  · intro hne
    rcases hsy with h | h <;> subst h <;> omega

/-- On an `x`-major line every iteration moves in `x`; on a `y`-major line, in `y`. -/
theorem major_move {x1 y1 dx dy sx sy : Int} {s : LineState}
    (hinv : LineInv x1 y1 dx dy sx sy s) (hne : ¬ (s.x0 = x1 ∧ s.y0 = y1)) :
    (XMajor dx dy s →
        (x1 - s.x0).natAbs = (x1 - (lineNext dx dy sx sy s).x0).natAbs + 1) ∧
      (YMajor dx dy s →
        (y1 - s.y0).natAbs = (y1 - (lineNext dx dy sx sy s).y0).natAbs + 1) := by
  obtain ⟨mx, my, -⟩ := lineNext_move hinv hne
  obtain ⟨nx, ny⟩ := lineInv_natAbs hinv
  have hsx : sx ≠ 0 := by rcases hinv.1 with h | h <;> rw [h] <;> decide
  have hsy : sy ≠ 0 := by rcases hinv.2.1 with h | h <;> rw [h] <;> decide
  constructor
  · intro hX
    have hx := (xMajor_next sx sy hX).2
    rw [hx]
    rcases mx with ⟨-, h⟩ | h
    · exact nx h
    · rw [hx] at h; omega
  · intro hY
    have hy := (yMajor_next sx sy hY).2
    rw [hy]
    rcases my with ⟨-, h⟩ | h
    · exact ny h
    · rw [hy] at h; omega

/-- Over unbounded integers, the number of callback invocations made by
`doLine` is `max(|x1 - x0|, |y1 - y0|) + 1`: one pixel per step along the major axis. -/
theorem doLine_length (x0 y0 x1 y1 : Int) :
    ∃ pts, doLine x0 y0 x1 y1 = some (pts, LoopExit.target) ∧
      pts.length = max (x1 - x0).natAbs (y1 - y0).natAbs + 1 := by
  obtain ⟨pts, hrun, hX, hY, hT⟩ := doLine_run x0 y0 x1 y1
    (fun s pts =>
      (XMajor (absi (x1 - x0)) (-absi (y1 - y0)) s → pts.length = (x1 - s.x0).natAbs + 1) ∧
      (YMajor (absi (x1 - x0)) (-absi (y1 - y0)) s → pts.length = (y1 - s.y0).natAbs + 1) ∧
      (s.x0 = x1 ∧ s.y0 = y1 → pts.length = 1))
    (fun s _ hx hy => by simp [hx, hy])
    (fun s pts hinv hne ih => by
      obtain ⟨ihX, ihY, -⟩ := ih
      obtain ⟨mX, mY⟩ := major_move hinv hne
      refine ⟨fun hX => ?_, fun hY => ?_, fun h => absurd h hne⟩
      · rw [List.length_cons, ihX (xMajor_next _ _ hX).1, mX hX]
      · rw [List.length_cons, ihY (yMajor_next _ _ hY).1, mY hY])
  refine ⟨pts, hrun 0, ?_⟩
  rcases major_init x0 y0 x1 y1 with h | h | h
  · rw [hX h]
    obtain ⟨-, h1, -⟩ := h
    rw [absi_eq_natAbs, absi_eq_natAbs] at h1
    simp only
    omega
  · rw [hY h]
    obtain ⟨-, h1, -⟩ := h
    rw [absi_eq_natAbs, absi_eq_natAbs] at h1
    simp only
    omega
  · rw [hT h]
    obtain ⟨h1, h2⟩ := h
    subst h1 h2
    simp

/-- Under the loop invariant of `doLine x0 y0 x1 y1`, the moves made so far are the
distances of the current point from the start. -/
theorem lineInv_done {x0 y0 x1 y1 : Int} {s : LineState}
    (hinv : LineInv x1 y1 (absi (x1 - x0)) (-absi (y1 - y0))
      (if x0 < x1 then 1 else -1) (if y0 < y1 then 1 else -1) s) :
    ∃ a b : Int, 0 ≤ a ∧ a ≤ absi (x1 - x0) ∧ 0 ≤ b ∧ b ≤ absi (y1 - y0) ∧
      absi (s.x0 - x0) = absi (x1 - x0) - a ∧ absi (s.y0 - y0) = absi (y1 - y0) - b ∧
      x1 = s.x0 + (if x0 < x1 then 1 else -1) * a ∧
      y1 = s.y0 + (if y0 < y1 then 1 else -1) * b ∧
      s.error = absi (x1 - x0) + -absi (y1 - y0) - a * -absi (y1 - y0)
        - b * absi (x1 - x0) := by
  obtain ⟨-, -, a, b, ha0, ha, hb0, hb, hx1, hy1, he⟩ := hinv
  refine ⟨a, b, ha0, ha, hb0, by omega, ?_, ?_, hx1, hy1, he⟩
  · simp only [absi] at ha ⊢
    split_ifs at ha hx1 ⊢ <;> omega
  · simp only [absi] at hb ⊢
    split_ifs at hb hy1 ⊢ <;> omega

/-- The current point of the loop is within half a pixel of the ideal segment. -/
theorem nearLine_of_major {x0 y0 x1 y1 : Int} {s : LineState}
    (hinv : LineInv x1 y1 (absi (x1 - x0)) (-absi (y1 - y0))
      (if x0 < x1 then 1 else -1) (if y0 < y1 then 1 else -1) s)
    (hm : XMajor (absi (x1 - x0)) (-absi (y1 - y0)) s ∨
      YMajor (absi (x1 - x0)) (-absi (y1 - y0)) s) :
    nearLine x0 y0 x1 y1 (s.x0, s.y0) := by
  obtain ⟨a, b, -, -, -, -, hi, hj, -, -, he⟩ := lineInv_done hinv
  unfold nearLine
  simp only
  rw [hi, hj]
  generalize absi (x1 - x0) = D at *
  generalize absi (y1 - y0) = E at *
  have key : D * (E - b) - E * (D - a) = s.error - D + E := by rw [he]; ring
  rw [key]
  have h2 : (2 : Int) * |s.error - D + E| = |2 * (s.error - D + E)| := by
    rw [abs_mul]; simp
  rw [h2]
  rcases hm with ⟨-, h1, h3, h4⟩ | ⟨-, h1, h3, h4⟩
  · exact le_trans (abs_le.mpr ⟨by omega, by omega⟩) (le_max_left _ _)
  · exact le_trans (abs_le.mpr ⟨by omega, by omega⟩) (le_max_right _ _)

/-- Over unbounded integers, every point `(x, y)` that `doLine` visits is
within half a pixel of the ideal segment, measured along the minor axis:
`2 * | |x1-x0| * |y-y0| - |y1-y0| * |x-x0| | ≤ max(|x1-x0|, |y1-y0|)`. -/
theorem doLine_near_segment (x0 y0 x1 y1 : Int) :
    ∃ pts, doLine x0 y0 x1 y1 = some (pts, LoopExit.target) ∧
      ∀ p ∈ pts,
        2 * |absi (x1 - x0) * absi (p.2 - y0) - absi (y1 - y0) * absi (p.1 - x0)|
          ≤ max (absi (x1 - x0)) (absi (y1 - y0)) := by
  obtain ⟨pts, hrun, hP⟩ := doLine_run x0 y0 x1 y1
    (fun s pts =>
      (XMajor (absi (x1 - x0)) (-absi (y1 - y0)) s ∨
        YMajor (absi (x1 - x0)) (-absi (y1 - y0)) s) →
      ∀ p ∈ pts, nearLine x0 y0 x1 y1 p)
    (fun s hinv _ _ hm p hp => by
      rw [List.mem_singleton] at hp
      subst hp
      exact nearLine_of_major hinv hm)
    (fun s pts hinv _ ih hm p hp => by
      rcases List.mem_cons.mp hp with h | h
      · subst h
        exact nearLine_of_major hinv hm
      · refine ih ?_ p h
        rcases hm with hm | hm
        · exact Or.inl (xMajor_next _ _ hm).1
        · exact Or.inr (yMajor_next _ _ hm).1)
  refine ⟨pts, hrun 0, ?_⟩
  rcases major_init x0 y0 x1 y1 with h | h | ⟨h1, h2⟩
  · exact hP (Or.inl h)
  · exact hP (Or.inr h)
  · intro p _
    subst h1 h2
    simp [absi]

/-- The current point of the loop lies in the bounding rectangle of the endpoints. -/
theorem inBox_of_inv {x0 y0 x1 y1 : Int} {s : LineState}
    (hinv : LineInv x1 y1 (absi (x1 - x0)) (-absi (y1 - y0))
      (if x0 < x1 then 1 else -1) (if y0 < y1 then 1 else -1) s) :
    inBox x0 y0 x1 y1 (s.x0, s.y0) := by
  obtain ⟨a, b, ha0, ha, hb0, hb, -, -, hx1, hy1, -⟩ := lineInv_done hinv
  unfold inBox
  simp only [absi] at ha hb
  refine ⟨?_, ?_, ?_, ?_⟩ <;> simp only <;> split_ifs at ha hb hx1 hy1 <;> omega

/-- One iteration moves the current point towards the target, or leaves it, in each
coordinate. -/
theorem towards_next {x0 y0 x1 y1 : Int} {s : LineState}
    (hinv : LineInv x1 y1 (absi (x1 - x0)) (-absi (y1 - y0))
      (if x0 < x1 then 1 else -1) (if y0 < y1 then 1 else -1) s)
    (hne : ¬ (s.x0 = x1 ∧ s.y0 = y1)) :
    towards x0 y0 x1 y1 (s.x0, s.y0)
      ((lineNext (absi (x1 - x0)) (-absi (y1 - y0))
          (if x0 < x1 then 1 else -1) (if y0 < y1 then 1 else -1) s).x0,
        (lineNext (absi (x1 - x0)) (-absi (y1 - y0))
          (if x0 < x1 then 1 else -1) (if y0 < y1 then 1 else -1) s).y0) := by
  obtain ⟨mx, my, -⟩ := lineNext_move hinv hne
  obtain ⟨a, b, ha0, ha, hb0, hb, -, -, hx1, hy1, -⟩ := lineInv_done hinv
  generalize (lineNext (absi (x1 - x0)) (-absi (y1 - y0))
    (if x0 < x1 then 1 else -1) (if y0 < y1 then 1 else -1) s).x0 = nx at *
  generalize (lineNext (absi (x1 - x0)) (-absi (y1 - y0))
    (if x0 < x1 then 1 else -1) (if y0 < y1 then 1 else -1) s).y0 = ny at *
  unfold towards
  simp only [absi] at ha hb
  refine ⟨?_, ?_, ?_, ?_⟩ <;> simp only <;> intro h
  · rcases mx with ⟨mx, mx'⟩ | mx <;> split_ifs at ha hx1 mx <;> omega
  · rcases mx with ⟨mx, mx'⟩ | mx <;> split_ifs at ha hx1 mx <;> omega
  · rcases my with ⟨my, my'⟩ | my <;> split_ifs at hb hy1 my <;> omega
  · rcases my with ⟨my, my'⟩ | my <;> split_ifs at hb hy1 my <;> omega

/-- Claim C20. For all integer endpoints, every point that `doLine` visits lies in the
bounding rectangle of the endpoints, and `x` and `y` each move monotonically towards
the target along the sequence. Hence, when both endpoints are inside the canvas, every
point of the stroke (`strokePoints`, the points handed to the pixel write) is inside
the canvas. -/
theorem doLine_in_box (x0 y0 x1 y1 : Int) :
    ∃ pts, doLine x0 y0 x1 y1 = some (pts, LoopExit.target) ∧
      pts = strokePoints x0 y0 x1 y1 ∧
      (∀ p ∈ pts, min x0 x1 ≤ p.1 ∧ p.1 ≤ max x0 x1 ∧ min y0 y1 ≤ p.2 ∧ p.2 ≤ max y0 y1) ∧
      List.Chain' (fun p q : Int × Int =>
        (x0 ≤ x1 → p.1 ≤ q.1) ∧ (x1 ≤ x0 → q.1 ≤ p.1) ∧
          (y0 ≤ y1 → p.2 ≤ q.2) ∧ (y1 ≤ y0 → q.2 ≤ p.2)) pts ∧
      (inBounds (x0, y0) → inBounds (x1, y1) → ∀ p ∈ pts, inBounds p) := by
  obtain ⟨pts, hrun, hP⟩ := doLine_run x0 y0 x1 y1
    (fun s pts => pts.head? = some (s.x0, s.y0) ∧ (∀ p ∈ pts, inBox x0 y0 x1 y1 p) ∧
      List.Chain' (towards x0 y0 x1 y1) pts)
    (fun s hinv _ _ => by
      refine ⟨rfl, ?_, List.chain'_singleton _⟩
      intro p hp
      rw [List.mem_singleton] at hp
      subst hp
      exact inBox_of_inv hinv)
    (fun s pts hinv hne ih => by
      obtain ⟨hh, hb, hc⟩ := ih
      refine ⟨rfl, ?_, ?_⟩
      · intro p hp
        rcases List.mem_cons.mp hp with h | h
        · subst h; exact inBox_of_inv hinv
        · exact hb p h
      · cases pts with
        | nil => exact List.chain'_singleton _
        | cons q qs =>
          simp only [List.head?_cons, Option.some.injEq] at hh
          refine List.Chain'.cons ?_ hc
          rw [hh]
          exact towards_next hinv hne)
  obtain ⟨-, hbox, hch⟩ := hP
  have hrun0 : doLine x0 y0 x1 y1 = some (pts, LoopExit.target) := hrun 0
  have hsp : pts = strokePoints x0 y0 x1 y1 := by
    have := doLine_strokePoints x0 y0 x1 y1
    rw [hrun0] at this
    simp only [Option.some.injEq, Prod.mk.injEq, and_true] at this
    exact this
  refine ⟨pts, hrun0, hsp, hbox, hch, ?_⟩
  intro h0 h1 p hp
  have := hbox p hp
  unfold inBox at this
  unfold inBounds at h0 h1 ⊢
  simp only at h0 h1
  omega

/-! ## The viewport -/

theorem goInt_of_nonneg {q : ℚ} (h : 0 ≤ q) : goInt q = ⌊q⌋ := by
  simp [goInt, h]

/-- For a scale of at least 1, `int(n / scale)` lies between 0 and `n`. -/
theorem goInt_div_bounds {n : Int} {sc : ℚ} (hn : 0 ≤ n) (hs : 1 ≤ sc) :
    0 ≤ goInt ((n : ℚ) / sc) ∧ goInt ((n : ℚ) / sc) ≤ n := by
  have hpos : (0 : ℚ) < sc := lt_of_lt_of_le one_pos hs
  have hn' : (0 : ℚ) ≤ (n : ℚ) := by exact_mod_cast hn
  have h0 : (0 : ℚ) ≤ (n : ℚ) / sc := div_nonneg hn' hpos.le
  have h1 : (n : ℚ) / sc ≤ (n : ℚ) := div_le_self hn' hs
  rw [goInt_of_nonneg h0]
  constructor
  · exact Int.floor_nonneg.mpr h0
  · have := Int.floor_le_floor h1
    rwa [Int.floor_intCast] at this

/-- The mapper of `Update` computes `offset + int(x / scale)`. -/
theorem canvas_eq (g : Game) (hs : g.scale ≠ 0) (x : Int) :
    g.canvasX x = g.offsetx + goInt ((x : ℚ) / g.scale) ∧
      g.canvasY x = g.offsety + goInt ((x : ℚ) / g.scale) := by
  unfold Game.canvasX Game.canvasY
  simp only
  have hw : ((WIDTH : Int) : ℚ) ≠ 0 := by simp [WIDTH]
  have hh : ((HEIGHT : Int) : ℚ) ≠ 0 := by simp [HEIGHT]
  constructor
  · congr 2
    field_simp
    ring
  · congr 2
    field_simp
    ring

theorem zoom_scale (g : Game) (y : ℚ) :
    (g.zoom y).scale = if y ≠ 0 then min (max (g.scale + y / 10) 1) 10 else g.scale := by
  unfold Game.zoom
  by_cases hy : y ≠ 0
  · rw [if_pos hy, if_pos hy]
    simp only
    by_cases h1 : g.scale + y / 10 < 1
    · rw [if_pos h1, max_eq_right h1.le]
      norm_num
    · rw [if_neg h1, max_eq_left (not_lt.mp h1)]
      by_cases h2 : g.scale + y / 10 > 10
      · rw [if_pos h2, min_eq_right h2.le]
      · rw [if_neg h2, min_eq_left (not_lt.mp h2)]
  · rw [if_neg hy, if_neg hy]

/-- The offsets after the pan branch: the offset moved by half the pointer motion,
clamped below by 0 and then above by the extent minus the visible extent. -/
theorem pan_offsets (g : Game) (mx my : Int) :
    (g.pan mx my).offsetx =
        min (max (g.offsetx - Int.tdiv (mx - g.mousePX) 2) 0)
          (WIDTH - goInt ((WIDTH : ℚ) / g.scale)) ∧
      (g.pan mx my).offsety =
        min (max (g.offsety - Int.tdiv (my - g.mousePY) 2) 0)
          (HEIGHT - goInt ((HEIGHT : ℚ) / g.scale)) := by
  unfold Game.pan
  simp only
  constructor
  · generalize g.offsetx - Int.tdiv (mx - g.mousePX) 2 = o
    generalize goInt ((WIDTH : ℚ) / g.scale) = k
    generalize WIDTH = w
    split_ifs <;> omega
  · generalize g.offsety - Int.tdiv (my - g.mousePY) 2 = o
    generalize goInt ((HEIGHT : ℚ) / g.scale) = k
    generalize HEIGHT = w
    split_ifs <;> omega

theorem tick_fields (g : Game) :
    g.tick.scale = g.scale ∧ g.tick.offsetx = g.offsetx ∧ g.tick.offsety = g.offsety ∧
      g.tick.mousePX = g.mousePX ∧ g.tick.mousePY = g.mousePY ∧
      g.tick.images = g.images ∧ g.tick.active = g.active :=
  ⟨rfl, rfl, rfl, rfl, rfl, rfl, rfl⟩

/-- The state the button chain of `Update` starts from agrees with the state before
the step on the viewport, the pointer trace and the active pointer. -/
theorem preButtons_fields (g : Game) (inp : Input) :
    (((g.tick).pauseKey inp.keySpace).clearKey inp.keyC).scale = g.scale ∧
      (((g.tick).pauseKey inp.keySpace).clearKey inp.keyC).offsetx = g.offsetx ∧
      (((g.tick).pauseKey inp.keySpace).clearKey inp.keyC).offsety = g.offsety ∧
      (((g.tick).pauseKey inp.keySpace).clearKey inp.keyC).mousePX = g.mousePX ∧
      (((g.tick).pauseKey inp.keySpace).clearKey inp.keyC).mousePY = g.mousePY ∧
      (((g.tick).pauseKey inp.keySpace).clearKey inp.keyC).active = g.active ∧
      (((g.tick).pauseKey inp.keySpace).clearKey inp.keyC).images g.active =
        (if inp.keyC then (g.images g.active).Clear else g.images g.active) := by
  obtain ⟨-, -, c3, -, -, -, c7, c8, c9, c10, c11⟩ :=
    clearKey_fields ((g.tick).pauseKey inp.keySpace) inp.keyC
  obtain ⟨-, -, p3, -, -, -, p7, p8, p9, p10, p11, p12⟩ := pauseKey_fields g.tick inp.keySpace
  obtain ⟨t1, t2, t3, t4, t5, t6, t7⟩ := tick_fields g
  refine ⟨by rw [c7, p8, t1], by rw [c8, p9, t2], by rw [c9, p10, t3], by rw [c10, p11, t4],
    by rw [c11, p12, t5], by rw [c3, p3, t7], ?_⟩
  unfold Game.clearKey
  cases inp.keyC
  · simp [p7, t6]
  · simp [p7, p3, t6, t7]

/-- The offsets after the button chain: only the pan branch changes them. -/
theorem buttons_offsets (g : Game) (inp : Input) :
    (g.buttons inp).offsetx =
        (if inp.left = false ∧ inp.right = false ∧ inp.middle = true then
          (g.pan inp.mx inp.my).offsetx else g.offsetx) ∧
      (g.buttons inp).offsety =
        (if inp.left = false ∧ inp.right = false ∧ inp.middle = true then
          (g.pan inp.mx inp.my).offsety else g.offsety) := by
  have hs := fun c => strokeActive_fields g inp.mx inp.my c
  unfold Game.buttons
  cases inp.left <;> cases inp.right <;> cases inp.middle <;> simp [hs]

theorem pan_congr {g h : Game} (hs : g.scale = h.scale) (hx : g.offsetx = h.offsetx)
    (hy : g.offsety = h.offsety) (hpx : g.mousePX = h.mousePX) (hpy : g.mousePY = h.mousePY)
    (mx my : Int) :
    (g.pan mx my).offsetx = (h.pan mx my).offsetx ∧
      (g.pan mx my).offsety = (h.pan mx my).offsety := by
  rw [(pan_offsets g mx my).1, (pan_offsets g mx my).2, (pan_offsets h mx my).1,
    (pan_offsets h mx my).2, hs, hx, hy, hpx, hpy]
  exact ⟨rfl, rfl⟩

/-- The viewport and the pointer trace after the input handling of one step. -/
theorem inputStage_view (g : Game) (inp : Input) :
    (g.inputStage inp).scale =
        (if inp.wheelY ≠ 0 then min (max (g.scale + inp.wheelY / 10) 1) 10 else g.scale) ∧
      (g.inputStage inp).offsetx =
        (if inp.left = false ∧ inp.right = false ∧ inp.middle = true then
          (g.pan inp.mx inp.my).offsetx else g.offsetx) ∧
      (g.inputStage inp).offsety =
        (if inp.left = false ∧ inp.right = false ∧ inp.middle = true then
          (g.pan inp.mx inp.my).offsety else g.offsety) := by
  obtain ⟨q1, q2, q3, q4, q5, -, -⟩ := preButtons_fields g inp
  obtain ⟨-, -, -, -, -, -, -, z8, z9, -, -⟩ :=
    zoom_fields ((((g.tick).pauseKey inp.keySpace).clearKey inp.keyC).buttons inp) inp.wheelY
  obtain ⟨-, -, -, -, -, -, b7, -, -⟩ :=
    buttons_fields (((g.tick).pauseKey inp.keySpace).clearKey inp.keyC) inp
  obtain ⟨bx, by'⟩ := buttons_offsets (((g.tick).pauseKey inp.keySpace).clearKey inp.keyC) inp
  obtain ⟨px, py⟩ := pan_congr q1 q2 q3 q4 q5 inp.mx inp.my
  unfold Game.inputStage
  simp only [Game.trace]
  refine ⟨?_, ?_, ?_⟩
  · rw [zoom_scale, b7, q1]
  · rw [z8, bx, px, q2]
  · rw [z9, by', py, q3]

theorem transformPass_view (g : Game) :
    g.transformPass.scale = g.scale ∧ g.transformPass.offsetx = g.offsetx ∧
      g.transformPass.offsety = g.offsety ∧ g.transformPass.mousePX = g.mousePX ∧
      g.transformPass.mousePY = g.mousePY :=
  ⟨rfl, rfl, rfl, rfl, rfl⟩

/-- The viewport and the pointer trace after one `Update`. -/
theorem Update_view (g : Game) (inp : Input) :
    (g.Update inp).scale =
        (if inp.wheelY ≠ 0 then min (max (g.scale + inp.wheelY / 10) 1) 10 else g.scale) ∧
      (g.Update inp).offsetx =
        (if inp.left = false ∧ inp.right = false ∧ inp.middle = true then
          (g.pan inp.mx inp.my).offsetx else g.offsetx) ∧
      (g.Update inp).offsety =
        (if inp.left = false ∧ inp.right = false ∧ inp.middle = true then
          (g.pan inp.mx inp.my).offsety else g.offsety) ∧
      (g.Update inp).mousePX = inp.mx ∧ (g.Update inp).mousePY = inp.my := by
  obtain ⟨v1, v2, v3⟩ := inputStage_view g inp
  obtain ⟨-, -, -, -, -, -, m1, m2⟩ := inputStage_fields g inp
  by_cases h : passDue g inp
  · rw [Update_of_passDue h]
    obtain ⟨t1, t2, t3, t4, t5⟩ := transformPass_view (g.inputStage inp)
    rw [t1, t2, t3, t4, t5]
    exact ⟨v1, v2, v3, m1, m2⟩
  · rw [Update_of_not_passDue h]
    exact ⟨v1, v2, v3, m1, m2⟩

/-- A property of states that every `Update` preserves holds along every run. -/
theorem run_invariant (P : Game → Prop) (hstep : ∀ g inp, P g → P (g.Update inp))
    (inps : List Input) : ∀ g, P g → P (g.run inps) := by
  induction inps with
  | nil => intro g h; exact h
  | cons inp inps ih => intro g h; rw [run_cons]; exact ih _ (hstep g inp h)

/-! ## Properties of the viewport and the pointer trace -/

/-- Claim C11. In every state reachable from the state built in `main`, by any sequence
of `Update` steps with any inputs, `1 ≤ scale ≤ 10`; a step with a non-zero wheel delta
`y` sets `scale` to `clamp(scale + y/10, 1, 10)` and a step with a zero wheel delta
leaves it unchanged (scale as an exact rational). -/
theorem scale_clamped (shader : Image → Image) (inps : List Input) :
    (∀ (g : Game) (inp : Input), (g.Update inp).scale =
        if inp.wheelY ≠ 0 then min (max (g.scale + inp.wheelY / 10) 1) 10 else g.scale) ∧
      1 ≤ ((initGame shader).run inps).scale ∧ ((initGame shader).run inps).scale ≤ 10 := by
  refine ⟨fun g inp => (Update_view g inp).1, ?_⟩
  refine run_invariant (fun g => 1 ≤ g.scale ∧ g.scale ≤ 10) ?_ inps (initGame shader) ?_
  · intro g inp hg
    show 1 ≤ (g.Update inp).scale ∧ (g.Update inp).scale ≤ 10
    rw [(Update_view g inp).1]
    by_cases hy : inp.wheelY ≠ 0
    · rw [if_pos hy]
      exact ⟨le_min (le_max_right _ _) (by norm_num), min_le_right _ _⟩
    · rw [if_neg hy]
      exact hg
  · have h1 : (initGame shader).scale = 1 := rfl
    show 1 ≤ (initGame shader).scale ∧ (initGame shader).scale ≤ 10
    rw [h1]
    norm_num

/-- Claim C16. For every state and every input, after `Update` the stored previous
pointer position `(mousePX, mousePY)` is the cursor position `(mx, my)` sampled in that
step, whichever buttons are held and whether or not the pass fires. -/
theorem pointer_trace (g : Game) (inp : Input) :
    (g.Update inp).mousePX = inp.mx ∧ (g.Update inp).mousePY = inp.my :=
  ⟨(Update_view g inp).2.2.2.1, (Update_view g inp).2.2.2.2⟩

/-- Claim C17. In a pan step (left and right up, middle held) with `1 ≤ scale` (as in
every state with `scale` in `[1, 10]`), for any prior offset and pointer positions, the offset after the pan branch, and after
the step, is `clamp(offsetx - trunc((mx - mousePX)/2), 0, WIDTH - int(WIDTH/scale))`,
the division truncating toward zero (so that a pointer delta of `1` or `-1` halves
to 0); likewise for `y` with `HEIGHT`. The result lies in
`[0, WIDTH - int(WIDTH/scale)]`, and is 0 when the scale is 1. -/
theorem pan_step (g : Game) (inp : Input) (hs1 : 1 ≤ g.scale)
    (hl : inp.left = false) (hr : inp.right = false) (hm : inp.middle = true) :
    (g.buttons inp).offsetx =
        min (max (g.offsetx - Int.tdiv (inp.mx - g.mousePX) 2) 0)
          (WIDTH - goInt ((WIDTH : ℚ) / g.scale)) ∧
      (g.buttons inp).offsety =
        min (max (g.offsety - Int.tdiv (inp.my - g.mousePY) 2) 0)
          (HEIGHT - goInt ((HEIGHT : ℚ) / g.scale)) ∧
      (g.Update inp).offsetx = (g.buttons inp).offsetx ∧
      (g.Update inp).offsety = (g.buttons inp).offsety ∧
      (0 ≤ (g.Update inp).offsetx ∧
        (g.Update inp).offsetx ≤ WIDTH - goInt ((WIDTH : ℚ) / g.scale)) ∧
      (0 ≤ (g.Update inp).offsety ∧
        (g.Update inp).offsety ≤ HEIGHT - goInt ((HEIGHT : ℚ) / g.scale)) ∧
      (g.scale = 1 → (g.Update inp).offsetx = 0 ∧ (g.Update inp).offsety = 0) ∧
      Int.tdiv 1 2 = 0 ∧ Int.tdiv (-1) 2 = 0 := by
  obtain ⟨bx, by'⟩ := buttons_offsets g inp
  obtain ⟨-, ux, uy, -⟩ := Update_view g inp
  obtain ⟨px, py⟩ := pan_offsets g inp.mx inp.my
  have hc : inp.left = false ∧ inp.right = false ∧ inp.middle = true := ⟨hl, hr, hm⟩
  rw [if_pos hc] at bx by' ux uy
  have hw := goInt_div_bounds (n := WIDTH) (by decide) hs1
  have hh := goInt_div_bounds (n := HEIGHT) (by decide) hs1
  refine ⟨by rw [bx, px], by rw [by', py], by rw [ux, bx], by rw [uy, by'], ?_, ?_, ?_,
    by decide, by decide⟩
  · rw [ux, px]
    exact ⟨le_min (le_max_right _ _) (by omega), min_le_right _ _⟩
  · rw [uy, py]
    exact ⟨le_min (le_max_right _ _) (by omega), min_le_right _ _⟩
  · intro h1
    rw [ux, px, uy, py, h1]
    have hw1 : goInt ((WIDTH : ℚ) / 1) = WIDTH := by simp [goInt, WIDTH]
    have hh1 : goInt ((HEIGHT : ℚ) / 1) = HEIGHT := by simp [goInt, HEIGHT]
    rw [hw1, hh1]
    constructor
    · rw [sub_self]
      exact min_eq_right (le_max_right _ _)
    · rw [sub_self]
      exact min_eq_right (le_max_right _ _)

/-- Witness for claim C17: at scale 2, the pointer dragged with the middle button
from `(1000, 600)` to `(0, 0)`. -/
theorem pan_step_witness :
    (1 : ℚ) ≤ zoomedGame.scale ∧ panInput.left = false ∧
      panInput.right = false ∧ panInput.middle = true ∧
      (zoomedGame.Update panInput).offsetx = (zoomedGame.buttons panInput).offsetx ∧
      (zoomedGame.buttons panInput).offsetx =
        min (max (zoomedGame.offsetx - Int.tdiv (panInput.mx - zoomedGame.mousePX) 2) 0)
          (WIDTH - goInt ((WIDTH : ℚ) / zoomedGame.scale)) :=
  ⟨by norm_num [zoomedGame], rfl, rfl, rfl,
    (pan_step zoomedGame panInput (by norm_num [zoomedGame]) rfl rfl rfl).2.2.1,
    (pan_step zoomedGame panInput (by norm_num [zoomedGame]) rfl rfl rfl).1⟩

/-! ## The active image after the input handling -/

theorem buttons_stroke (g : Game) (inp : Input)
    (hb : inp.left = true ∨ inp.right = true) :
    g.buttons inp =
      g.strokeActive inp.mx inp.my (if inp.left then paintColor else eraseColor) := by
  unfold Game.buttons
  cases hl : inp.left
  · rw [hl] at hb
    have hr : inp.right = true := by simpa using hb
    simp [hr]
  · simp

theorem buttons_images_of_no_stroke (g : Game) (inp : Input)
    (hl : inp.left = false) (hr : inp.right = false) :
    (g.buttons inp).images = g.images := by
  unfold Game.buttons
  rw [hl, hr]
  cases inp.middle
  · simp
  · simp [(pan_fields g inp.mx inp.my).2.2.2.2.2.2.1]

/-- The image that is active when a step begins, after the input handling of the step:
cleared if the clear key is pressed, then the paint or erase stroke written if the left
or (left being up) the right button is held. -/
theorem inputStage_active_image (g : Game) (inp : Input) :
    (g.inputStage inp).images g.active =
      if inp.left = true ∨ inp.right = true then
        g.strokeOn inp (g.baseImage inp) (if inp.left then paintColor else eraseColor)
      else g.baseImage inp := by
  obtain ⟨-, -, -, -, -, qa, qi⟩ := preButtons_fields g inp
  rw [inputStage_images]
  by_cases hb : inp.left = true ∨ inp.right = true
  · rw [if_pos hb, buttons_stroke _ inp hb, strokeActive_images, Function.update_same]
    rfl
  · rw [if_neg hb]
    have hl : inp.left = false := by
      cases h : inp.left
      · rfl
      · exact absurd (Or.inl h) hb
    have hr : inp.right = false := by
      cases h : inp.right
      · rfl
      · exact absurd (Or.inr h) hb
    rw [buttons_images_of_no_stroke _ inp hl hr, qi]
    rfl

/-- The two images after a step in which the pass fires, `active` and `buff` being
different images: the image that was active holds the result of the input handling and
is now `buff`; the other one holds the shader's image of it and is now `active`. -/
theorem Update_pass_images {g : Game} {inp : Input} (hd : passDue g inp)
    (hne : g.active ≠ g.buff) :
    (g.Update inp).active = g.buff ∧ (g.Update inp).buff = g.active ∧
      (g.Update inp).images g.buff = g.shader ((g.inputStage inp).images g.active) ∧
      (g.Update inp).images g.active = (g.inputStage inp).images g.active := by
  obtain ⟨-, -, -, ha, hb, -⟩ := Update_fields g inp
  obtain ⟨-, -, ia, ib, -, is, -⟩ := inputStage_fields g inp
  rw [if_pos hd] at ha hb
  refine ⟨ha, hb, ?_, Update_images_active g inp hne⟩
  rw [Update_of_passDue hd]
  simp only [Game.transformPass]
  rw [ia, ib, is]
  simp only [Function.update_idem, Function.update_same]
  rw [Function.update_noteq hne]

/-! ## Strokes, clear and the pass -/

/-- Counterexample to claim C12 as stated. Nine idle steps after `main`, the tenth step
has the clear key pressed and the paint button held with the pointer at `(0, 0)`, and
fires the pass (the shader here is the identity). The pixel `(110, 15)`, painted in
`main`, is transparent in the buffer that is active after the step, while in the
shader's image of the pre-step active buffer with the stroke written it has the paint
colour: the buffer is cleared before the stroke is written. -/
theorem pass_after_clear :
    clearPaintInput.left = true ∧ passDue nineIdle clearPaintInput ∧
      ((nineIdle.Update clearPaintInput).images
        (nineIdle.Update clearPaintInput).active).pix (110, 15) = eraseColor ∧
      (nineIdle.shader (nineIdle.strokeOn clearPaintInput
        (nineIdle.images nineIdle.active) paintColor)).pix (110, 15) = paintColor := by
  have hd : passDue nineIdle clearPaintInput := by decide
  have hne : nineIdle.active ≠ nineIdle.buff := by decide
  have hc := canvas_unit nineIdle rfl (by decide) (by decide)
  have hnot : (110, 15) ∉ strokePoints 0 0 0 0 := by decide
  have hpx : nineIdle.mousePX = 0 := by decide
  have hpy : nineIdle.mousePY = 0 := by decide
  obtain ⟨ha, -, hi, -⟩ := Update_pass_images hd hne
  refine ⟨rfl, hd, ?_, ?_⟩
  · have hl : clearPaintInput.left = true := rfl
    rw [ha, hi, inputStage_active_image,
      if_pos (show clearPaintInput.left = true ∨ clearPaintInput.right = true from Or.inl hl),
      if_pos hl]
    have hs : nineIdle.shader = fun img => img := by
      exact (run_quiet _ _ rfl (fun i hi => by rw [List.eq_of_mem_replicate hi]; rfl)
        (by decide)).2.2.2.2.2
    rw [hs]
    simp only [Game.strokeOn, stroke_pix, (hc _).1, (hc _).2, hpx, hpy]
    have h0 : clearPaintInput.mx = 0 := rfl
    have h1 : clearPaintInput.my = 0 := rfl
    rw [h0, h1]
    simp only [hnot, false_and, if_false]
    rfl
  · have hs : nineIdle.shader = fun img => img := by
      exact (run_quiet _ _ rfl (fun i hi => by rw [List.eq_of_mem_replicate hi]; rfl)
        (by decide)).2.2.2.2.2
    rw [hs]
    simp only [Game.strokeOn, stroke_pix, (hc _).1, (hc _).2, hpx, hpy]
    have h0 : clearPaintInput.mx = 0 := rfl
    have h1 : clearPaintInput.my = 0 := rfl
    rw [h0, h1]
    simp only [hnot, false_and, if_false]
    decide

/-- Claim C12, amended. For every `Update` step in which a paint or erase button is
held and the transform pass fires (`active` and `buff` being different images), the
stroke is written before the pass: the buffer that is active after the step is the
shader's image of the pre-step active buffer, cleared first if the clear key is pressed
in this step, with this step's stroke pixels written; and the buffer that becomes
`buff` is that post-paint buffer itself. Without the clear key the buffer written into
is the pre-step active buffer as it was. -/
theorem paint_then_pass (g : Game) (inp : Input)
    (hb : inp.left = true ∨ inp.right = true) (hd : passDue g inp)
    (hne : g.active ≠ g.buff) :
    (g.Update inp).active = g.buff ∧ (g.Update inp).buff = g.active ∧
      (g.Update inp).images (g.Update inp).active =
        g.shader (g.strokeOn inp (g.baseImage inp)
          (if inp.left then paintColor else eraseColor)) ∧
      (g.Update inp).images (g.Update inp).buff =
        g.strokeOn inp (g.baseImage inp) (if inp.left then paintColor else eraseColor) ∧
      (∀ p, (g.strokeOn inp (g.baseImage inp)
          (if inp.left then paintColor else eraseColor)).pix p =
        if p ∈ strokePoints (g.canvasX inp.mx) (g.canvasY inp.my)
            (g.canvasX g.mousePX) (g.canvasY g.mousePY) ∧ inBounds p then
          (if inp.left then paintColor else eraseColor)
        else (g.baseImage inp).pix p) ∧
      (g.baseImage inp =
        if inp.keyC then (g.images g.active).Clear else g.images g.active) := by
  obtain ⟨ha, hbf, hi, hj⟩ := Update_pass_images hd hne
  have him := inputStage_active_image g inp
  rw [if_pos hb] at him
  refine ⟨ha, hbf, ?_, ?_, ?_, rfl⟩
  · rw [ha, hi, him]
  · rw [hbf, hj, him]
  · intro p
    exact stroke_pix _ _ _ _ _ _ p

/-- Witness for claim C12: the tenth step after `main`, with the paint button held and
the clear key pressed. -/
theorem paint_then_pass_witness :
    (clearPaintInput.left = true ∨ clearPaintInput.right = true) ∧
      passDue nineIdle clearPaintInput ∧ nineIdle.active ≠ nineIdle.buff ∧
      (nineIdle.Update clearPaintInput).images (nineIdle.Update clearPaintInput).active =
        nineIdle.shader (nineIdle.strokeOn clearPaintInput
          (nineIdle.baseImage clearPaintInput)
          (if clearPaintInput.left then paintColor else eraseColor)) :=
  ⟨Or.inl rfl, by decide, by decide,
    (paint_then_pass nineIdle clearPaintInput (Or.inl rfl) (by decide) (by decide)).2.2.1⟩

/-- Counterexample to claim C13 as stated. In the first step after `main` the clear
key is pressed while the paint button is held with the pointer at `(0, 0)`: after the
step the pixel `(0, 0)` of the active buffer has the paint colour, not `(0, 0, 0, 0)`,
because the stroke is written after the clear. -/
theorem clear_then_paint :
    clearPaintInput.keyC = true ∧
      ((((initGame fun img => img).Update clearPaintInput).images
        ((initGame fun img => img).Update clearPaintInput).active).pix (0, 0) = paintColor) ∧
      paintColor ≠ eraseColor := by
  have hact : ((initGame fun img => img).Update clearPaintInput).active
      = (initGame fun img => img).active := by decide
  have hne : (initGame fun img => img).active ≠ (initGame fun img => img).buff := by decide
  have hc := canvas_unit (initGame fun img => img) rfl rfl rfl
  have hin : (0, 0) ∈ strokePoints 0 0 0 0 := by decide
  have hl : clearPaintInput.left = true := rfl
  refine ⟨rfl, ?_, by decide⟩
  rw [hact, Update_images_active _ _ hne, inputStage_active_image,
    if_pos (show clearPaintInput.left = true ∨ clearPaintInput.right = true from Or.inl hl),
    if_pos hl]
  simp only [Game.strokeOn, stroke_pix, (hc _).1, (hc _).2]
  have h0 : clearPaintInput.mx = 0 := rfl
  have h1 : clearPaintInput.my = 0 := rfl
  have hpx : (initGame fun img => img).mousePX = 0 := rfl
  have hpy : (initGame fun img => img).mousePY = 0 := rfl
  rw [h0, h1, hpx, hpy, if_pos ⟨hin, by decide⟩]

/-- Claim C13, amended. After an `Update` step in which the clear edge occurs (`active`
and `buff` being different images), every pixel of the buffer that was active when the
step began reads as `(0, 0, 0, 0)`, regardless of its earlier content and of the pause
flag, except the canvas pixels on this step's paint stroke when the paint button is
held, which have the paint colour. That buffer is still the active one unless the pass
fires in this step; then it is `buff` and the active buffer is the shader's image
of it. -/
theorem clear_step (g : Game) (inp : Input) (hc : inp.keyC = true)
    (hne : g.active ≠ g.buff) :
    (∀ p, ((g.Update inp).images g.active).pix p =
        if inp.left = true ∧
            p ∈ strokePoints (g.canvasX inp.mx) (g.canvasY inp.my)
              (g.canvasX g.mousePX) (g.canvasY g.mousePY) ∧ inBounds p then paintColor
        else eraseColor) ∧
      (¬ passDue g inp → (g.Update inp).active = g.active) ∧
      (passDue g inp → (g.Update inp).buff = g.active ∧
        (g.Update inp).images (g.Update inp).active =
          g.shader ((g.Update inp).images g.active)) := by
  refine ⟨fun p => ?_, fun hd => ?_, fun hd => ?_⟩
  · rw [Update_images_active g inp hne, inputStage_active_image]
    have hbase : ∀ q, (g.baseImage inp).pix q = eraseColor := by
      intro q
      simp [Game.baseImage, hc, Image.Clear]
    cases hl : inp.left
    · cases hr : inp.right
      · simp [hbase]
      · simp [Game.strokeOn, stroke_pix, hbase]
    · simp [Game.strokeOn, stroke_pix, hbase]
  · have := (Update_fields g inp).2.2.2.1
    rwa [if_neg hd] at this
  · obtain ⟨ha, hb, hi, hj⟩ := Update_pass_images hd hne
    exact ⟨hb, by rw [ha, hi, hj]⟩

/-- Witness for claim C13: the first step after `main`, with the clear key pressed and
the paint button held. -/
theorem clear_step_witness :
    clearPaintInput.keyC = true ∧
      (initGame fun img => img).active ≠ (initGame fun img => img).buff ∧
      (¬ passDue (initGame fun img => img) clearPaintInput →
        ((initGame fun img => img).Update clearPaintInput).active =
          (initGame fun img => img).active) :=
  ⟨rfl, by decide,
    (clear_step (initGame fun img => img) clearPaintInput rfl (by decide)).2.1⟩

/-- Claim C14. In each `Update` step at most one of the paint, erase and pan actions
takes effect, with priority paint, erase, pan. With the left button held the button
chain is the stroke with the paint colour, whatever the other buttons are; with left up
and right held it is the stroke with the transparent colour; with left and right up and
middle held it is the pan; with no button held it changes nothing. A stroke writes its
colour to the visited canvas pixels of the active image only and leaves the offsets;
the pan leaves the images; and over the whole step the offsets change only when left
and right are up and middle is held. -/
theorem stroke_mode (g : Game) (inp : Input) :
    (inp.left = true → g.buttons inp = g.strokeActive inp.mx inp.my paintColor) ∧
      (inp.left = false → inp.right = true →
        g.buttons inp = g.strokeActive inp.mx inp.my eraseColor) ∧
      (inp.left = false → inp.right = false → inp.middle = true →
        g.buttons inp = g.pan inp.mx inp.my) ∧
      (inp.left = false → inp.right = false → inp.middle = false → g.buttons inp = g) ∧
      (∀ c, (g.strokeActive inp.mx inp.my c).offsetx = g.offsetx ∧
        (g.strokeActive inp.mx inp.my c).offsety = g.offsety ∧
        (∀ r, r ≠ g.active → (g.strokeActive inp.mx inp.my c).images r = g.images r) ∧
        ∀ p, ((g.strokeActive inp.mx inp.my c).images g.active).pix p =
          if p ∈ strokePoints (g.canvasX inp.mx) (g.canvasY inp.my)
              (g.canvasX g.mousePX) (g.canvasY g.mousePY) ∧ inBounds p then c
          else (g.images g.active).pix p) ∧
      (g.pan inp.mx inp.my).images = g.images ∧
      ((g.Update inp).offsetx ≠ g.offsetx ∨ (g.Update inp).offsety ≠ g.offsety →
        inp.left = false ∧ inp.right = false ∧ inp.middle = true) := by
  refine ⟨?_, ?_, ?_, ?_, ?_, (pan_fields g inp.mx inp.my).2.2.2.2.2.2.1, ?_⟩
  · intro h; simp [Game.buttons, h]
  · intro h1 h2; simp [Game.buttons, h1, h2]
  · intro h1 h2 h3; simp [Game.buttons, h1, h2, h3]
  · intro h1 h2 h3; simp [Game.buttons, h1, h2, h3]
  · intro c
    obtain ⟨-, -, -, -, -, -, -, hx, hy, -⟩ := strokeActive_fields g inp.mx inp.my c
    refine ⟨hx, hy, ?_, ?_⟩
    · intro r hr
      simp [Game.strokeActive, Function.update_noteq hr]
    · intro p
      simp only [Game.strokeActive, Function.update_same]
      exact stroke_pix _ _ _ _ _ _ p
  · intro h
    obtain ⟨-, ux, uy, -⟩ := Update_view g inp
    by_contra hcon
    rw [if_neg hcon] at ux uy
    rcases h with h | h
    · exact h ux
    · exact h uy

/-! ## The mapper and pointer positions outside the window -/

/-- Counterexample to claim C15 as stated. In the state built in `main`, which satisfies
the viewport invariants, the pointer position `(-1, 0)` left of the window is mapped to
the canvas-space point `(-1, 0)`, outside the canvas: the mapper does not clamp. And
in a state at scale 3 with the largest offset the clamp allows, the pointer position
`(1023, 0)` inside the window is mapped to `(1024, 0)`, one past the last column. -/
theorem mapper_not_clamped :
    viewportOk (initGame fun img => img) ∧
      (initGame fun img => img).canvasX (-1) = -1 ∧
      ¬ inBounds ((initGame fun img => img).canvasX (-1),
        (initGame fun img => img).canvasY 0) ∧
      viewportOk cornerGame ∧ cornerGame.canvasX 1023 = 1024 ∧
      ¬ inBounds (cornerGame.canvasX 1023, cornerGame.canvasY 0) := by
  have hc := canvas_unit (initGame fun img => img) rfl rfl rfl
  have h3 : cornerGame.canvasX 1023 = 1024 := by
    norm_num [Game.canvasX, cornerGame, initGame, goInt, WIDTH]
  refine ⟨?_, (hc _).1, ?_, ?_, h3, ?_⟩
  · norm_num [viewportOk, initGame, goInt, WIDTH, HEIGHT]
  · rw [(hc _).1, (hc _).2]
    decide
  · norm_num [viewportOk, cornerGame, initGame, goInt, WIDTH, HEIGHT]
  · rw [h3]
    unfold inBounds
    simp [WIDTH]

/-- Claim C15, amended. The mapper does not clamp: it computes
`offset + int(pointer / scale)`. For every state satisfying the viewport invariants and
every pointer position inside the window (`0 ≤ x < WIDTH`, `0 ≤ y < HEIGHT`), current
or previous, the canvas-space coordinates that `Update` computes for a stroke lie in
`[0, WIDTH] × [0, HEIGHT]`. -/
theorem canvas_in_window (g : Game) (x y : Int) (hv : viewportOk g)
    (hx0 : 0 ≤ x) (hx1 : x < WIDTH) (hy0 : 0 ≤ y) (hy1 : y < HEIGHT) :
    g.canvasX x = g.offsetx + goInt ((x : ℚ) / g.scale) ∧
      g.canvasY y = g.offsety + goInt ((y : ℚ) / g.scale) ∧
      0 ≤ g.canvasX x ∧ g.canvasX x ≤ WIDTH ∧
      0 ≤ g.canvasY y ∧ g.canvasY y ≤ HEIGHT := by
  obtain ⟨hs1, -, ox0, ox1, oy0, oy1⟩ := hv
  have hpos : (0 : ℚ) < g.scale := lt_of_lt_of_le one_pos hs1
  have hcx := (canvas_eq g hpos.ne' x).1
  have hcy := (canvas_eq g hpos.ne' y).2
  have mono : ∀ a b : Int, 0 ≤ a → a ≤ b →
      0 ≤ goInt ((a : ℚ) / g.scale) ∧
        goInt ((a : ℚ) / g.scale) ≤ goInt ((b : ℚ) / g.scale) := by
    intro a b ha hab
    have ha' : (0 : ℚ) ≤ (a : ℚ) := by exact_mod_cast ha
    have hab' : (a : ℚ) ≤ (b : ℚ) := by exact_mod_cast hab
    have h0 : (0 : ℚ) ≤ (a : ℚ) / g.scale := div_nonneg ha' hpos.le
    have h1 : (a : ℚ) / g.scale ≤ (b : ℚ) / g.scale :=
      div_le_div_of_nonneg_right hab' hpos.le
    rw [goInt_of_nonneg h0, goInt_of_nonneg (le_trans h0 h1)]
    exact ⟨Int.floor_nonneg.mpr h0, Int.floor_le_floor h1⟩
  obtain ⟨mx0, mx1⟩ := mono x WIDTH hx0 hx1.le
  obtain ⟨my0, my1⟩ := mono y HEIGHT hy0 hy1.le
  refine ⟨hcx, hcy, ?_, ?_, ?_, ?_⟩
  · rw [hcx]; omega
  · rw [hcx]; omega
  · rw [hcy]; omega
  · rw [hcy]; omega

/-- Witness for claim C15: the state built in `main` and the pointer at `(130, 19)`. -/
theorem canvas_in_window_witness :
    viewportOk (initGame fun img => img) ∧ (0 : Int) ≤ 130 ∧ (130 : Int) < WIDTH ∧
      (0 : Int) ≤ 19 ∧ (19 : Int) < HEIGHT ∧
      0 ≤ (initGame fun img => img).canvasX 130 ∧
      (initGame fun img => img).canvasX 130 ≤ WIDTH :=
  ⟨by norm_num [viewportOk, initGame, goInt, WIDTH, HEIGHT], by decide, by decide,
    by decide, by decide,
    (canvas_in_window (initGame fun img => img) 130 19
      (by norm_num [viewportOk, initGame, goInt, WIDTH, HEIGHT])
      (by decide) (by decide) (by decide) (by decide)).2.2.1,
    (canvas_in_window (initGame fun img => img) 130 19
      (by norm_num [viewportOk, initGame, goInt, WIDTH, HEIGHT])
      (by decide) (by decide) (by decide) (by decide)).2.2.2.1⟩

/-! ## The 64-bit rasterizer within the no-overflow bound -/

theorem wrap64_eq {i : Int} (h1 : -2 ^ 63 ≤ i) (h2 : i < 2 ^ 63) : wrap64 i = i := by
  unfold wrap64
  omega

theorem doLineBody64_target (x1 y1 dx dy sx sy : Int) (s : LineState)
    (h : s.x0 = x1 ∧ s.y0 = y1) :
    doLineBody64 x1 y1 dx dy sx sy s = .error LoopExit.target := by
  simp [doLineBody64, h]
  rfl

/-- Within the bound, the sums and the doubling of an iteration do not wrap. -/
theorem safe64_ranges {x1 y1 dx dy sx sy : Int} {s : LineState}
    (hs : Safe64 x1 y1 dx dy sx sy s) (hne : ¬ (s.x0 = x1 ∧ s.y0 = y1)) :
    wrap64 (2 * s.error) = 2 * s.error ∧ wrap64 (s.error + dy) = s.error + dy ∧
      wrap64 (s.error + dx) = s.error + dx ∧
      wrap64 (s.error + dy + dx) = s.error + dy + dx ∧
      (s.x0 ≠ x1 → wrap64 (s.x0 + sx) = s.x0 + sx) ∧
      (s.y0 ≠ y1 → wrap64 (s.y0 + sy) = s.y0 + sy) := by
  obtain ⟨hinv, hmaj, hdx, hdy, hx0, hy0, hx1, hy1⟩ := hs
  obtain ⟨hsx, hsy, a, b, ha0, ha, hb0, hb, hxa, hyb, -⟩ := hinv
  unfold int64 at hx0 hy0 hx1 hy1
  have hb : (dy ≤ 0 ∧ -dy ≤ dx ∧ dx + 2 * dy < 2 * s.error ∧ 2 * s.error ≤ 3 * dx + 2 * dy) ∨
      (0 ≤ dx ∧ dx ≤ -dy ∧ 2 * dx + 3 * dy ≤ 2 * s.error ∧ 2 * s.error < 2 * dx + dy) := by
    rcases hmaj with h | h | h
    · exact Or.inl h
    · exact Or.inr h
    · exact absurd h hne
  refine ⟨?_, ?_, ?_, ?_, ?_, ?_⟩
  · apply wrap64_eq <;> omega
  · apply wrap64_eq <;> omega
  · apply wrap64_eq <;> omega
  · apply wrap64_eq <;> omega
  · intro hx
    apply wrap64_eq <;> rcases hsx with h | h <;> subst h <;> omega
  · intro hy
    apply wrap64_eq <;> rcases hsy with h | h <;> subst h <;> omega

/-- Within the bound, an iteration of the 64-bit loop away from the target takes no
`break` and computes what the loop over unbounded integers computes. -/
theorem doLineBody64_next {x1 y1 dx dy sx sy : Int} {s : LineState}
    (hs : Safe64 x1 y1 dx dy sx sy s) (hne : ¬ (s.x0 = x1 ∧ s.y0 = y1)) :
    doLineBody64 x1 y1 dx dy sx sy s = .ok (lineNext dx dy sx sy s) := by
  obtain ⟨he2, hed, hex, hedx, hxs, hys⟩ := safe64_ranges hs hne
  obtain ⟨hx, hy, _⟩ := lineInv_cases hs.1 hne
  unfold doLineBody64 lineNext
  rw [he2]
  by_cases h1 : 2 * s.error ≥ dy
  · by_cases h2 : 2 * s.error ≤ dx
    · simp [hne, h1, h2, hx h1, hy h2, hed, hedx, hxs (hx h1), hys (hy h2)]
      rfl
    · simp [hne, h1, h2, hx h1, hed, hxs (hx h1)]
      rfl
  · have h2 : 2 * s.error ≤ dx := by
      rcases hs.1 with ⟨_, _, a, b, _, _, _, _, _, _, _⟩
      omega
    simp [hne, h1, h2, hy h2, hex, hys (hy h2)]
    rfl

theorem safe64_next {x1 y1 dx dy sx sy : Int} {s : LineState}
    (hs : Safe64 x1 y1 dx dy sx sy s) (hne : ¬ (s.x0 = x1 ∧ s.y0 = y1)) :
    Safe64 x1 y1 dx dy sx sy (lineNext dx dy sx sy s) := by
  obtain ⟨-, -, -, -, hxs, hys⟩ := safe64_ranges hs hne
  obtain ⟨hinv, hmaj, hdx, hdy, hx0, hy0, hx1, hy1⟩ := hs
  obtain ⟨mx, my, -⟩ := lineNext_move hinv hne
  refine ⟨lineInv_next hinv hne, ?_, hdx, hdy, ?_, ?_, hx1, hy1⟩
  · rcases hmaj with h | h | h
    · exact Or.inl (xMajor_next sx sy h).1
    · exact Or.inr (Or.inl (yMajor_next sx sy h).1)
    · exact absurd h hne
  · obtain ⟨hsx, -, a, b, ha0, -, -, -, hxa, -, -⟩ := hinv
    unfold int64 at hx0 hx1 ⊢
    rcases mx with ⟨mx, mx'⟩ | mx <;> rw [mx]
    · rcases hsx with h | h <;> subst h <;> omega
    · exact hx0
  · obtain ⟨-, hsy, a, b, -, -, hb0, -, -, hyb, -⟩ := hinv
    unfold int64 at hy0 hy1 ⊢
    rcases my with ⟨my, my'⟩ | my <;> rw [my]
    · rcases hsy with h | h <;> subst h <;> omega
    · exact hy0

/-- Within the bound, a run of the loop over unbounded integers that has a result is
also the run of the 64-bit loop. -/
theorem doLineLoop64_of_doLineLoop {x1 y1 dx dy sx sy : Int} (n : Nat) :
    ∀ (s : LineState) (r : List (Int × Int) × LoopExit), Safe64 x1 y1 dx dy sx sy s →
      doLineLoop x1 y1 dx dy sx sy n s = some r →
      doLineLoop64 x1 y1 dx dy sx sy n s = (r.1, some r.2) := by
  induction n with
  | zero => intro s r _ h; simp [doLineLoop] at h
  | succ n ih =>
    intro s r hs h
    by_cases ht : s.x0 = x1 ∧ s.y0 = y1
    · rw [doLineLoop_target x1 y1 dx dy sx sy n s ht] at h
      simp only [Option.some.injEq] at h
      subst h
      simp [doLineLoop64, doLineBody64_target x1 y1 dx dy sx sy s ht]
    · rw [doLineLoop_next n hs.1 ht] at h
      simp only [Option.map_eq_some'] at h
      obtain ⟨r', hr', hrr⟩ := h
      subst hrr
      have := ih (lineNext dx dy sx sy s) r' (safe64_next hs ht) hr'
      simp [doLineLoop64, doLineBody64_next hs ht, this]

/-- Within the bound, the values `doLine` enters its loop with are computed without
wrapping. -/
theorem doLine64_init {x0 y0 x1 y1 : Int} (h : lineFits x0 y0 x1 y1) :
    absi64 (wrap64 (x1 - x0)) = absi (x1 - x0) ∧
      wrap64 (-absi64 (wrap64 (y1 - y0))) = -absi (y1 - y0) ∧
      wrap64 (absi (x1 - x0) + -absi (y1 - y0)) = absi (x1 - x0) + -absi (y1 - y0) := by
  obtain ⟨-, -, -, -, hx, hy⟩ := h
  have hwx : wrap64 (x1 - x0) = x1 - x0 := by apply wrap64_eq <;> omega
  have hwy : wrap64 (y1 - y0) = y1 - y0 := by apply wrap64_eq <;> omega
  have hax : absi64 (x1 - x0) = absi (x1 - x0) := by
    unfold absi64 absi
    split
    · apply wrap64_eq <;> omega
    · rfl
  have hay : absi64 (y1 - y0) = absi (y1 - y0) := by
    unfold absi64 absi
    split
    · apply wrap64_eq <;> omega
    · rfl
  rw [hwx, hwy, hax, hay, absi_eq_natAbs, absi_eq_natAbs]
  refine ⟨rfl, ?_, ?_⟩
  · apply wrap64_eq <;> omega
  · apply wrap64_eq <;> omega

theorem safe64_init {x0 y0 x1 y1 : Int} (h : lineFits x0 y0 x1 y1) :
    Safe64 x1 y1 (absi (x1 - x0)) (-absi (y1 - y0))
      (if x0 < x1 then 1 else -1) (if y0 < y1 then 1 else -1)
      ⟨x0, y0, absi (x1 - x0) + -absi (y1 - y0)⟩ := by
  obtain ⟨h0, h1, h2, h3, hx, hy⟩ := h
  refine ⟨lineInv_init x0 y0 x1 y1, major_init x0 y0 x1 y1, ?_, ?_, h0, h1, h2, h3⟩
  · rw [absi_eq_natAbs]; omega
  · rw [absi_eq_natAbs]; omega

/-- Refinement: within the no-overflow bound, `doLine` on 64-bit `int` makes the run
that `doLine` over unbounded integers makes, for every iteration budget from
`lineBudget` on. -/
theorem doLine64_of_doLine {x0 y0 x1 y1 : Int} (h : lineFits x0 y0 x1 y1)
    {r : List (Int × Int) × LoopExit} (hr : doLine x0 y0 x1 y1 = some r) (k : Nat) :
    doLine64 (lineBudget x0 y0 x1 y1 + k) x0 y0 x1 y1 = (r.1, some r.2) := by
  obtain ⟨i1, i2, i3⟩ := doLine64_init h
  unfold doLine64
  simp only [i1, i2, i3]
  exact doLineLoop64_of_doLineLoop _ _ r (safe64_init h)
    (doLineLoop_mono _ _ _ _ _ _ _ _ r hr k)

/-- Within the no-overflow bound, the points of a stroke are the points that `doLine`
on 64-bit `int` passes to its callback. -/
theorem doLine64_strokePoints {x0 y0 x1 y1 : Int} (h : lineFits x0 y0 x1 y1) (k : Nat) :
    doLine64 (lineBudget x0 y0 x1 y1 + k) x0 y0 x1 y1
      = (strokePoints x0 y0 x1 y1, some LoopExit.target) :=
  doLine64_of_doLine h (doLine_strokePoints x0 y0 x1 y1) k

/-- With equal endpoints `doLine` on 64-bit `int` calls its callback once, since the
first `break` is tested before any arithmetic on the loop variables. -/
theorem doLine64_same (x y : Int) (k : Nat) :
    doLine64 (1 + k) x y x y = ([(x, y)], some LoopExit.target) := by
  have hk : 1 + k = k + 1 := by omega
  unfold doLine64
  rw [hk]
  simp [doLineLoop64, doLineBody64_target]

theorem absi_eq_abs (i : Int) : absi i = |i| := by
  unfold absi
  split
  · rw [abs_of_neg (by assumption)]
  · rw [abs_of_nonneg (by omega)]

/-! ## Properties of the rasterizer on 64-bit integers -/

/-- Counterexample to claim C1 as stated. On 64-bit `int`, `doLine(0, 0, MaxInt64, 1)`
calls its callback with `(0, 0)` and `(0, 1)` and then leaves the loop through the
inner `break` on `y0 == y1`: `2 * error` wraps to `-4`, the `x` test fails, and the
target `(MaxInt64, 1)` is never emitted. -/
theorem doLine64_inner_break :
    int64 (2 ^ 63 - 1) ∧
      doLine64 2 0 0 (2 ^ 63 - 1) 1 = ([(0, 0), (0, 1)], some LoopExit.yGuard) := by
  decide

/-- Claim C1, amended. For every pair of endpoints within the no-overflow bound (64-bit
`int` coordinates, less than `2 ^ 61` apart in `x` and in `y`), `doLine` on 64-bit `int`
leaves its loop through the first `break`, never through one of the two inner ones, and
the sequence of points passed to the callback starts with `(x0, y0)` and ends with
`(x1, y1)`. -/
theorem doLine64_endpoints (x0 y0 x1 y1 : Int) (h : lineFits x0 y0 x1 y1) :
    ∃ pts, (∀ k, doLine64 (lineBudget x0 y0 x1 y1 + k) x0 y0 x1 y1
        = (pts, some LoopExit.target)) ∧
      pts.head? = some (x0, y0) ∧ pts.getLast? = some (x1, y1) := by
  obtain ⟨pts, hr, hh, hl⟩ := doLine_endpoints x0 y0 x1 y1
  exact ⟨pts, fun k => doLine64_of_doLine h hr k, hh, hl⟩

/-- Witness for claim C1: the line from `(100, 10)` to `(130, 19)`. -/
theorem doLine64_endpoints_witness :
    lineFits 100 10 130 19 ∧
      ∃ pts, (∀ k, doLine64 (lineBudget 100 10 130 19 + k) 100 10 130 19
          = (pts, some LoopExit.target)) ∧
        pts.head? = some (100, 10) ∧ pts.getLast? = some (130, 19) :=
  ⟨by decide, doLine64_endpoints 100 10 130 19 (by decide)⟩

/-- Counterexample to claim C2 as stated. On 64-bit `int`, `doLine(0, 0, MinInt64, 1)`
has `dx` wrapped to `-2 ^ 63` and `2 * error` to `-2`; both tests fail, the point does
not move, and the callback is called with `(0, 0)` twice in a row. -/
theorem doLine64_stutters :
    int64 (-2 ^ 63) ∧ doLine64 2 0 0 (-2 ^ 63) 1 = ([(0, 0), (0, 0)], none) ∧
      ¬ List.Chain' neighbour8 (doLine64 2 0 0 (-2 ^ 63) 1).1 := by
  have h : doLine64 2 0 0 (-2 ^ 63) 1 = ([(0, 0), (0, 0)], none) := by decide
  refine ⟨by decide, h, ?_⟩
  rw [h]
  simp [neighbour8]

/-- Claim C2, amended. For every pair of endpoints within the no-overflow bound, any
two consecutive points that `doLine` on 64-bit `int` passes to its callback are
8-neighbours: distinct, and at most one apart in `x` and in `y`. -/
theorem doLine64_connected (x0 y0 x1 y1 : Int) (h : lineFits x0 y0 x1 y1) :
    ∃ pts, (∀ k, doLine64 (lineBudget x0 y0 x1 y1 + k) x0 y0 x1 y1
        = (pts, some LoopExit.target)) ∧
      List.Chain' neighbour8 pts := by
  obtain ⟨pts, hr, hc⟩ := doLine_connected x0 y0 x1 y1
  exact ⟨pts, fun k => doLine64_of_doLine h hr k, hc⟩

/-- Witness for claim C2: the line from `(0, 0)` to `(-3, 7)`. -/
theorem doLine64_connected_witness :
    lineFits 0 0 (-3) 7 ∧
      ∃ pts, (∀ k, doLine64 (lineBudget 0 0 (-3) 7 + k) 0 0 (-3) 7
          = (pts, some LoopExit.target)) ∧
        List.Chain' neighbour8 pts :=
  ⟨by decide, doLine64_connected 0 0 (-3) 7 (by decide)⟩

/-- Counterexample to claim C3 as stated. On 64-bit `int`, the first three callback
invocations of `doLine(0, 0, MinInt64, 1)` are all at `(0, 0)`. -/
theorem doLine64_repeats :
    doLine64 3 0 0 (-2 ^ 63) 1 = ([(0, 0), (0, 0), (0, 0)], none) ∧
      ¬ (doLine64 3 0 0 (-2 ^ 63) 1).1.Nodup := by
  decide

/-- Claim C3, amended. For every pair of endpoints within the no-overflow bound,
`doLine` on 64-bit `int` passes no point to its callback twice. -/
theorem doLine64_nodup (x0 y0 x1 y1 : Int) (h : lineFits x0 y0 x1 y1) :
    ∃ pts, (∀ k, doLine64 (lineBudget x0 y0 x1 y1 + k) x0 y0 x1 y1
        = (pts, some LoopExit.target)) ∧
      pts.Nodup := by
  obtain ⟨pts, hr, hn⟩ := doLine_nodup x0 y0 x1 y1
  exact ⟨pts, fun k => doLine64_of_doLine h hr k, hn⟩

/-- Witness for claim C3: the line from `(2, 1)` to `(0, 0)`. -/
theorem doLine64_nodup_witness :
    lineFits 2 1 0 0 ∧
      ∃ pts, (∀ k, doLine64 (lineBudget 2 1 0 0 + k) 2 1 0 0
          = (pts, some LoopExit.target)) ∧
        pts.Nodup :=
  ⟨by decide, doLine64_nodup 2 1 0 0 (by decide)⟩

/-- Counterexample to claim C5 as stated. On 64-bit `int`, `doLine(0, 0, MinInt64, 1)`
never leaves its loop: `dx` wraps to `-2 ^ 63`, `error` to `2 ^ 63 - 1` and `2 * error`
to `-2`, so that neither test holds and every iteration leaves the variables as they
are. No number of iterations ends the run. -/
theorem doLine64_diverges :
    ¬ ∃ fuel, (doLine64 fuel 0 0 (-2 ^ 63) 1).2 ≠ none := by
  have hbody : doLineBody64 (-2 ^ 63) 1 (-2 ^ 63) (-1) (-1) 1 ⟨0, 0, 2 ^ 63 - 1⟩
      = .ok ⟨0, 0, 2 ^ 63 - 1⟩ := by rfl
  have hloop : ∀ n,
      (doLineLoop64 (-2 ^ 63) 1 (-2 ^ 63) (-1) (-1) 1 n ⟨0, 0, 2 ^ 63 - 1⟩).2 = none := by
    intro n
    induction n with
    | zero => rfl
    | succ n ih =>
      simp only [doLineLoop64]
      rw [hbody]
      exact ih
  have hdx : absi64 (wrap64 (-2 ^ 63 - 0)) = -2 ^ 63 := by decide
  have hdy : wrap64 (-absi64 (wrap64 (1 - 0))) = -1 := by decide
  have he : wrap64 (-2 ^ 63 + -1) = 2 ^ 63 - 1 := by decide
  rintro ⟨fuel, h⟩
  apply h
  unfold doLine64
  simp only [hdx, hdy, he]
  exact hloop fuel

/-- Claim C5, amended. For every pair of endpoints within the no-overflow bound the
unbounded `for` loop of `doLine` on 64-bit `int` terminates: with every iteration budget
from `lineBudget` on, the run ends through the `break` taken at the target with one and
the same finite sequence of callback invocations, of at most `lineBudget` points, and
the target is not reached before the last of them. -/
theorem doLine64_terminates (x0 y0 x1 y1 : Int) (h : lineFits x0 y0 x1 y1) :
    ∃ pts, (∀ k, doLine64 (lineBudget x0 y0 x1 y1 + k) x0 y0 x1 y1
        = (pts, some LoopExit.target)) ∧
      pts.length ≤ lineBudget x0 y0 x1 y1 ∧ (x1, y1) ∉ pts.dropLast := by
  obtain ⟨pts, hr, hl, hd⟩ := doLine_terminates x0 y0 x1 y1
  have hr0 : doLine x0 y0 x1 y1 = some (pts, LoopExit.target) := hr 0
  exact ⟨pts, fun k => doLine64_of_doLine h hr0 k, hl, hd⟩

/-- Witness for claim C5: the line from `(130, 19)` to `(100, 10)`. -/
theorem doLine64_terminates_witness :
    lineFits 130 19 100 10 ∧
      ∃ pts, (∀ k, doLine64 (lineBudget 130 19 100 10 + k) 130 19 100 10
          = (pts, some LoopExit.target)) ∧
        pts.length ≤ lineBudget 130 19 100 10 ∧ (100, 10) ∉ pts.dropLast :=
  ⟨by decide, doLine64_terminates 130 19 100 10 (by decide)⟩

/-- Counterexample to claim C18 as stated. On 64-bit `int`, `doLine(0, 0, MaxInt64, 1)`
makes two callback invocations and leaves its loop, where
`max(|x1 - x0|, |y1 - y0|) + 1` is `2 ^ 63`. -/
theorem doLine64_short :
    doLine64 2 0 0 (2 ^ 63 - 1) 1 = ([(0, 0), (0, 1)], some LoopExit.yGuard) ∧
      (doLine64 2 0 0 (2 ^ 63 - 1) 1).1.length = 2 ∧
      max ((2 ^ 63 - 1 - 0 : Int)).natAbs ((1 - 0 : Int)).natAbs + 1 = 2 ^ 63 := by
  decide

/-- Claim C18, amended. For every pair of endpoints within the no-overflow bound, the
number of callback invocations made by `doLine` on 64-bit `int` is
`max(|x1 - x0|, |y1 - y0|) + 1`: one pixel per step along the major axis. -/
theorem doLine64_length (x0 y0 x1 y1 : Int) (h : lineFits x0 y0 x1 y1) :
    ∃ pts, (∀ k, doLine64 (lineBudget x0 y0 x1 y1 + k) x0 y0 x1 y1
        = (pts, some LoopExit.target)) ∧
      pts.length = max (x1 - x0).natAbs (y1 - y0).natAbs + 1 := by
  obtain ⟨pts, hr, hl⟩ := doLine_length x0 y0 x1 y1
  exact ⟨pts, fun k => doLine64_of_doLine h hr k, hl⟩

/-- Witness for claim C18: the line from `(0, 0)` to `(2, 1)`. -/
theorem doLine64_length_witness :
    lineFits 0 0 2 1 ∧
      ∃ pts, (∀ k, doLine64 (lineBudget 0 0 2 1 + k) 0 0 2 1
          = (pts, some LoopExit.target)) ∧
        pts.length = max ((2 : Int) - 0).natAbs ((1 : Int) - 0).natAbs + 1 :=
  ⟨by decide, doLine64_length 0 0 2 1 (by decide)⟩

/-- Counterexample to claim C19 as stated. On 64-bit `int`, `doLine(0, 0, MaxInt64, 1)`
visits `(0, 1)`, a full pixel above the start of a line that is almost horizontal:
there `2 * | |x1-x0| * |y-y0| - |y1-y0| * |x-x0| |` is `2 * MaxInt64`, more than
`max(|x1-x0|, |y1-y0|) = MaxInt64`. -/
theorem doLine64_off_segment :
    (0, 1) ∈ (doLine64 2 0 0 (2 ^ 63 - 1) 1).1 ∧
      (doLine64 2 0 0 (2 ^ 63 - 1) 1).2 = some LoopExit.yGuard ∧
      ¬ (2 * |(|(2 ^ 63 - 1 - 0 : Int)| * |(1 - 0 : Int)| - |(1 - 0 : Int)| * |(0 - 0 : Int)|)|
        ≤ max |(2 ^ 63 - 1 - 0 : Int)| |(1 - 0 : Int)|) := by
  refine ⟨by decide, by decide, ?_⟩
  norm_num

/-- Claim C19, amended. For every pair of endpoints within the no-overflow bound, every
point `(x, y)` that `doLine` on 64-bit `int` visits is within half a pixel of the ideal
segment, measured along the minor axis:
`2 * | |x1-x0| * |y-y0| - |y1-y0| * |x-x0| | ≤ max(|x1-x0|, |y1-y0|)`. -/
theorem doLine64_near_segment (x0 y0 x1 y1 : Int) (h : lineFits x0 y0 x1 y1) :
    ∃ pts, (∀ k, doLine64 (lineBudget x0 y0 x1 y1 + k) x0 y0 x1 y1
        = (pts, some LoopExit.target)) ∧
      ∀ p ∈ pts,
        2 * |(|x1 - x0| * |p.2 - y0| - |y1 - y0| * |p.1 - x0|)|
          ≤ max |x1 - x0| |y1 - y0| := by
  obtain ⟨pts, hr, hn⟩ := doLine_near_segment x0 y0 x1 y1
  refine ⟨pts, fun k => doLine64_of_doLine h hr k, ?_⟩
  intro p hp
  have := hn p hp
  simpa only [absi_eq_abs] using this

/-- Witness for claim C19: the line from `(0, 0)` to `(1, 3)`. -/
theorem doLine64_near_segment_witness :
    lineFits 0 0 1 3 ∧
      ∃ pts, (∀ k, doLine64 (lineBudget 0 0 1 3 + k) 0 0 1 3
          = (pts, some LoopExit.target)) ∧
        ∀ p ∈ pts,
          2 * |(|(1 : Int) - 0| * |p.2 - 0| - |(3 : Int) - 0| * |p.1 - 0|)|
            ≤ max |(1 : Int) - 0| |(3 : Int) - 0| :=
  ⟨by decide, doLine64_near_segment 0 0 1 3 (by decide)⟩

end Conway
